import Mathlib

/-!
# minigrad: the scalar autograd engine of `src/include/engine.hpp`

A shallow embedding of class `Value` and of its operations, and of the
classes `Neuron`, `Layer`, `MLP` of `src/include/nn.hpp`, written from the
C++ source.

Modelling conventions.

* `double` is the field `ℚ`: exact arithmetic, a total order, no NaN, no
  infinities and no rounding.  The functions of `<cmath>` the engine calls
  (`std::pow`, `std::exp`, `std::tanh`) and `std::to_string` are parameters,
  collected in `Libm`.
* A `Value` is copied by value wherever the C++ copies it: the members of the
  `set<Value>` of parents, the local `other_value` of the binary operators,
  the elements of `topo` and `visited` are all copies.
* Objects with an address (declared variables, temporaries, the locals
  `other_value` and `out` of an operator) live in a `Heap`; a closure stored
  in `_backward` captures by reference (`[&]`), so it holds addresses.
* The named local `out` that an operator returns is the returned object
  itself (the return value is built in place), so the address of `out`
  captured by the closure is the address of the operator's result.
* The local `other_value` of `operator+` and `operator*` is destroyed when
  the operator returns, so the reference to it that the closure holds dangles
  whenever the closure is invoked (`Closure.dangling`).  The heap keeps a cell
  at the address the reference holds: a write through the reference lands in
  that cell and a read through it returns what the cell holds.  In the C++
  program the cell is storage that has been given back (the stack of whatever
  call runs at that time), so what such a read returns and what such a write
  hits is not fixed by the source.
* The end of the lifetime of the other objects (declared variables, the
  results of operators, the number an exponent was read from) is not
  tracked: their cells are read and written like those of live objects.
* `int` is 32 bits wide (`Exponent.wrap`).
* In `nn.hpp` the sizes `nin`, `nout` are `int`, modelled by `ℤ`; a weight or
  a bias is known by its address, an element that `push_back` stores is a new
  object, and the numbers drawn from the random generator are a parameter of
  the constructors.
-/

/-- An address of an object of class `Value`. -/
abbrev Addr := Nat

/-- The exponent handed to `Value::pow<T>`: the template argument `T` is
`int`, `double`, or some other arithmetic type (`float`, `long`, ...).  An
`int` holds a number from `-2147483648` to `2147483647`. -/
inductive Exponent where
  | int (k : ℤ)
  | double (k : ℚ)
  | other (k : ℚ)
deriving DecidableEq

/-- The `int` that 32-bit arithmetic yields for the exact result `z`: `z`
itself when it fits, and `z` reduced modulo `2^32` into the range of `int`
when it does not (the overflow of `INT_MIN - 1` gives `INT_MAX`). -/
def Exponent.wrap (z : ℤ) : ℤ :=
  (z + 2147483648) % 4294967296 - 2147483648

/-- The numeric value of an exponent, as `std::pow` and `operator*` on
`double` see it. -/
def Exponent.val : Exponent → ℚ
  | .int k => (k : ℚ)
  | .double k => k
  | .other k => k

/-- The expression `other - 1` of the closure of `pow`, computed in the type
of the exponent: in `int` arithmetic for an `int`. -/
def Exponent.pred : Exponent → Exponent
  | .int k => .int (Exponent.wrap (k - 1))
  | .double k => .double (k - 1)
  | .other k => .other (k - 1)

/-- The test of `pow`:
`std::is_same<T, double>::value || std::is_same<T, int>::value`. -/
def Exponent.is_scalar : Exponent → Bool
  | .int _ => true
  | .double _ => true
  | .other _ => false

/-- The library functions used by `engine.hpp`, over the model of `double`. -/
structure Libm where
  pow : ℚ → ℚ → ℚ
  exp : ℚ → ℚ
  tanh : ℚ → ℚ
  to_string : Exponent → String

/-- The `std::function<void()>` stored in `_backward`.  Every lambda of the
engine is `[&]`: it captures `this` (the receiver of the operator) and
references to the locals and parameters it names, so it holds addresses:
of the `Value` objects `*this`, `other_value`, `out`, and, for `pow`, of the
object the parameter `const T& other` is bound to (the exponent, an address
into `Heap.num`).  `leaf` is the lambda `[]() {return 0.0;}` installed by
the constructor. -/
inductive Closure where
  | leaf
  | add (self other_value out : Addr)
  | mul (self other_value out : Addr)
  | pow (self other out : Addr)
  | exp (self out : Addr)
  | relu (self out : Addr)
  | tanh (self out : Addr)
deriving DecidableEq

/-- Class `Value`: the members `data`, `grad`, `_prev` (a `set<Value>`, kept
as the list of its elements in iteration order), `_op`, `_backward`. -/
inductive Value where
  | mk (data grad : ℚ) (_prev : List Value) (_op : String) (_backward : Closure)

namespace Value

/-- Member `data`. -/
def data : Value → ℚ
  | mk d _ _ _ _ => d

/-- Member `grad`. -/
def grad : Value → ℚ
  | mk _ g _ _ _ => g

/-- Member `_prev`. -/
def _prev : Value → List Value
  | mk _ _ p _ _ => p

/-- Member `_op`. -/
def _op : Value → String
  | mk _ _ _ o _ => o

/-- Member `_backward`. -/
def _backward : Value → Closure
  | mk _ _ _ _ b => b

/-- Assignment to the member `grad`. -/
def set_grad : Value → ℚ → Value
  | mk d _ p o b, g => mk d g p o b

/-- Assignment to the member `_backward` (`out._backward = backward;`). -/
def set_backward : Value → Closure → Value
  | mk d g p o _, b => mk d g p o b

/-- Member `bool operator<(const Value& other) const`: compares `data` only. -/
def lt (a b : Value) : Bool := decide (a.data < b.data)

end Value

/-- Model of `std::set<Value>::insert`: the set is ordered by `Value::operator<`; an
element equivalent to one already present (neither is less than the other) is
not inserted. -/
def set_insert (v : Value) : List Value → List Value
  | [] => [v]
  | w :: ws =>
    if v.lt w then v :: w :: ws
    else if w.lt v then w :: set_insert v ws
    else w :: ws

/-- Model of `std::set<Value>::find(v) != end()`: is there an element equivalent to
`v` under `Value::operator<`. -/
def set_find (v : Value) : List Value → Bool
  | [] => false
  | w :: ws =>
    if v.lt w then false
    else if w.lt v then set_find v ws
    else true

/-- Construction of a `set<Value>` from a sequence (an initializer list or an
iterator range): the elements are inserted one after the other. -/
def set_of (l : List Value) : List Value :=
  l.foldl (fun s v => set_insert v s) []

/-- Constructor `Value(double data, set<Value> _children={}, string _op="")`: `grad` is
0, `_backward` is the lambda that does nothing, `_prev` is emptied and then
receives the range of `_children`. -/
def Value.ctor (data : ℚ) (_children : List Value) (_op : String) : Value :=
  .mk data 0 (set_of _children) _op .leaf

/-- The objects of class `Value` by address, and the next free address; the
numbers that a call of `pow` was given as exponent (`int` or `double`
variables and temporaries of the caller), by address, and the next free
address for them. -/
structure Heap where
  obj : Addr → Value
  next : Addr
  num : Addr → Exponent
  next_num : Addr

namespace Heap

/-- No object declared yet; a cell never written reads as `Value()`. -/
def empty : Heap := ⟨fun _ => Value.ctor 0 [] "", 0, fun _ => .int 0, 0⟩

/-- A new object at the next free address. -/
def alloc (h : Heap) (v : Value) : Heap :=
  ⟨Function.update h.obj h.next v, h.next + 1, h.num, h.next_num⟩

/-- The object that the argument of `pow` denotes: a number of the caller,
at the next free address for numbers. -/
def bind (h : Heap) (k : Exponent) : Heap :=
  ⟨h.obj, h.next, Function.update h.num h.next_num k, h.next_num + 1⟩

/-- Client code `k = v;` on a number that was handed to `pow`. -/
def assign_num (h : Heap) (e : Addr) (k : Exponent) : Heap :=
  ⟨h.obj, h.next, Function.update h.num e k, h.next_num⟩

/-- Storage that was given back is used again: the cell at `q`, whose object
was destroyed, now holds `v`. -/
def reuse (h : Heap) (q : Addr) (v : Value) : Heap :=
  ⟨Function.update h.obj q v, h.next, h.num, h.next_num⟩

/-- Client code `x = y;` on two objects of class `Value`: the copy
assignment, member by member. -/
def assign (h : Heap) (x y : Addr) : Heap :=
  ⟨Function.update h.obj x (h.obj y), h.next, h.num, h.next_num⟩

/-- Client code `Value z = y;`: the copy constructor.  Returns the heap and
the address of `z`. -/
def copy (h : Heap) (r : Addr) : Heap × Addr :=
  (h.alloc (h.obj r), h.next)

/-- Client code `Value x(d);`: a leaf built from a literal.  Returns the heap
and the address of `x`. -/
def declare (h : Heap) (d : ℚ) : Heap × Addr :=
  (h.alloc (Value.ctor d [] ""), h.next)

/-- The statement `p->grad = g`. -/
def set_grad (h : Heap) (p : Addr) (g : ℚ) : Heap :=
  ⟨Function.update h.obj p ((h.obj p).set_grad g), h.next, h.num, h.next_num⟩

/-- The statement `p->grad += x`. -/
def add_grad (h : Heap) (p : Addr) (x : ℚ) : Heap :=
  h.set_grad p ((h.obj p).grad + x)

end Heap

/-- The argument `const T& other` of a binary operator: a `Value` (by
reference, so an address) or a numeric literal (`double` or `int`). -/
inductive Operand where
  | value (r : Addr)
  | literal (x : ℚ)
deriving DecidableEq

/-- The first lines of `operator+`, `operator*` and `operator/`: the local
`Value other_value` is a copy of `other` when `T` is `Value`, and
`Value(other)` otherwise. -/
def other_value (h : Heap) : Operand → Value
  | .value r => h.obj r
  | .literal x => Value.ctor x [] ""

/-- Invocation of a stored closure: the bodies of the lambdas of
`engine.hpp`, statement by statement, on the cells at the addresses the
captured references hold.  For `operator+` and `operator*` the reference
`other_value` dangles (`Closure.dangling`): `ov` is then the cell standing
for the storage the reference points into. -/
def Closure.call (m : Libm) (h : Heap) : Closure → Heap
  | .leaf => h
  | .add self ov out =>
    let h1 := h.add_grad self (h.obj out).grad
    h1.add_grad ov (h1.obj out).grad
  | .mul self ov out =>
    let h1 := h.add_grad self ((h.obj ov).data * (h.obj out).grad)
    h1.add_grad ov ((h1.obj self).data * (h1.obj out).grad)
  | .pow self other out =>
    h.add_grad self
      ((h.num other).val * m.pow (h.obj self).data (h.num other).pred.val * (h.obj out).grad)
  | .exp self out =>
    h.add_grad self ((h.obj out).data * (h.obj out).grad)
  | .relu self out =>
    h.add_grad self (if (h.obj out).data > 0 then (h.obj out).grad else 0)
  | .tanh self out =>
    h.add_grad self ((1 - (h.obj out).data * (h.obj out).data) * (h.obj out).grad)

namespace Value

/-- Member `Value operator+(const T& other)`.  Allocates the locals `other_value`
and `out`; returns the heap and the address of the result `out`. -/
def add (h : Heap) (self : Addr) (other : Operand) : Heap × Addr :=
  let ov := h.next
  let h1 := h.alloc (other_value h other)
  let out := h1.next
  let v := Value.ctor ((h1.obj self).data + (h1.obj ov).data)
    (set_of [h1.obj self, h1.obj ov]) "+"
  (h1.alloc (v.set_backward (.add self ov out)), out)

/-- Member `Value operator*(const T& other)`, built like `operator+`. -/
def mul (h : Heap) (self : Addr) (other : Operand) : Heap × Addr :=
  let ov := h.next
  let h1 := h.alloc (other_value h other)
  let out := h1.next
  let v := Value.ctor ((h1.obj self).data * (h1.obj ov).data)
    (set_of [h1.obj self, h1.obj ov]) "*"
  (h1.alloc (v.set_backward (.mul self ov out)), out)

/-- Member `Value pow(const T& other)`, called on an argument whose value is
`other`: throws `std::invalid_argument` unless `T` is `double` or `int`,
before anything is constructed.  The parameter is a reference: it is bound to
the number of the caller at the address `e`, and the closure holds `e`. -/
def pow (m : Libm) (h : Heap) (self : Addr) (other : Exponent) :
    Except String (Heap × Addr) :=
  if !other.is_scalar then .error "The power should be a scalar value"
  else
    let e := h.next_num
    let h0 := h.bind other
    let out := h0.next
    let v := Value.ctor (m.pow (h0.obj self).data (h0.num e).val) (set_of [h0.obj self])
      ("**\x7b" ++ m.to_string (h0.num e) ++ "\x7d")
    .ok (h0.alloc (v.set_backward (.pow self e out)), out)

/-- Unary `Value operator-()`: `return (*this) * -1;`. -/
def neg (h : Heap) (self : Addr) : Heap × Addr :=
  mul h self (.literal (-1))

/-- Binary `Value operator-(const T& other)`: `return (*this) + (-other);`.
For a numeric `other` the operand of `operator+` is the negated number.  For
a `Value` the text applies the unary minus to `other`; that member is not
`const` while `other` is a `const Value&`, so a compiler rejects this
instantiation, and the branch follows the text of the source. -/
def sub (h : Heap) (self : Addr) : Operand → Heap × Addr
  | .literal x => add h self (.literal (-x))
  | .value r =>
    let t := neg h r
    add t.1 self (.value t.2)

/-- Member `Value operator/(const T& other)`:
`return (*this) * other_value.pow(-1);` with the local `other_value`. -/
def div (m : Libm) (h : Heap) (self : Addr) (other : Operand) :
    Except String (Heap × Addr) :=
  let ov := h.next
  let h1 := h.alloc (other_value h other)
  match pow m h1 ov (.int (-1)) with
  | .error e => .error e
  | .ok p => .ok (mul p.1 self (.value p.2))

/-- Member `Value exp()`. -/
def exp (m : Libm) (h : Heap) (self : Addr) : Heap × Addr :=
  let out := h.next
  let v := Value.ctor (m.exp (h.obj self).data) (set_of [h.obj self]) "exp"
  (h.alloc (v.set_backward (.exp self out)), out)

/-- Member `Value relu()`. -/
def relu (h : Heap) (self : Addr) : Heap × Addr :=
  let out := h.next
  let v := Value.ctor (max 0 (h.obj self).data) (set_of [h.obj self]) "reLU"
  (h.alloc (v.set_backward (.relu self out)), out)

/-- Member `Value tanh()`. -/
def tanh (m : Libm) (h : Heap) (self : Addr) : Heap × Addr :=
  let out := h.next
  let v := Value.ctor (m.tanh (h.obj self).data) (set_of [h.obj self]) "tanh"
  (h.alloc (v.set_backward (.tanh self out)), out)

end Value

mutual
/-- The lambda `topo_sort` of `Value::backward`, on the state
`(visited, topo)`: returns at once when `visited.find(node)` succeeds;
otherwise inserts a copy of `node` into `visited`, runs on a copy of every
element of `node._prev` in set order, and appends a copy of `node`. -/
def topo_sort (node : Value) (st : List Value × List Value) :
    List Value × List Value :=
  match node with
  | .mk d g prev o b =>
    if set_find (.mk d g prev o b) st.1 then st
    else
      let st1 := topo_sort_children prev (set_insert (.mk d g prev o b) st.1, st.2)
      (st1.1, st1.2 ++ [.mk d g prev o b])
/-- The loop `for (Value child : node._prev) topo_sort(child);`. -/
def topo_sort_children (children : List Value) (st : List Value × List Value) :
    List Value × List Value :=
  match children with
  | [] => st
  | child :: rest => topo_sort_children rest (topo_sort child st)
end

/-- The vector `topo` that `backward()` has built when `topo_sort(*this)`
returns. -/
def Value.topo (h : Heap) (self : Addr) : List Value :=
  (topo_sort (h.obj self) ([], [])).2

/-- Member `void backward()`: build `topo`, set `this->grad = 1`, then walk `topo`
from its last element to its first and invoke `_backward` of a copy of each
element. -/
def Value.backward (m : Libm) (h : Heap) (self : Addr) : Heap :=
  let topo := Value.topo h self
  let h1 := h.set_grad self 1
  topo.reverse.foldl (fun g node => node._backward.call m g) h1

mutual
/-- The nodes reachable from a node through `_prev`, the node itself
included, as the copies the node holds. -/
def Value.nodes : Value → List Value
  | .mk d g prev o b => .mk d g prev o b :: nodes_of prev
/-- The nodes reachable from the elements of a list of nodes. -/
def nodes_of : List Value → List Value
  | [] => []
  | c :: rest => c.nodes ++ nodes_of rest
end

/-- A sample library for evaluating the model on concrete inputs: integer
powers for `pow`, and rational stand-ins for `exp` and `tanh` that agree with
them at 0. -/
def Libm.sample : Libm where
  pow := fun x k => x ^ k.floor
  exp := fun x => 1 + x
  tanh := fun x => x / (1 + |x|)
  to_string := fun _ => ""


/-- The objects a closure writes to: the receiver `this` and, for the binary
operators, the local `other_value`. -/
def Closure.targets : Closure → List Addr
  | .leaf => []
  | .add self ov _ => [self, ov]
  | .mul self ov _ => [self, ov]
  | .pow self _ _ => [self]
  | .exp self _ => [self]
  | .relu self _ => [self]
  | .tanh self _ => [self]

/-- The object a closure reads the upstream gradient from: the one its
reference `out` denotes. -/
def Closure.out : Closure → Option Addr
  | .leaf => none
  | .add _ _ out => some out
  | .mul _ _ out => some out
  | .pow _ _ out => some out
  | .exp _ out => some out
  | .relu _ out => some out
  | .tanh _ out => some out

/-- The references of a closure that dangle whenever the closure is invoked:
`other_value` is a local of `operator+` and of `operator*`, destroyed when
the operator returned, and the closure is invoked by `backward()` later.
Whether the other references (`this`, `out`, the exponent of `pow`) still
denote an object depends on the caller and is not recorded. -/
def Closure.dangling : Closure → List Addr
  | .add _ ov _ => [ov]
  | .mul _ ov _ => [ov]
  | _ => []

/-- The nodes a closure refers to: the receiver `*this` and the result
`out`. -/
def Closure.nodes : Closure → List Addr
  | .leaf => []
  | .add self _ out => [self, out]
  | .mul self _ out => [self, out]
  | .pow self _ out => [self, out]
  | .exp self out => [self, out]
  | .relu self out => [self, out]
  | .tanh self out => [self, out]

/-- The nodes of the graph of a root, as objects: the root, and the receiver
and the result of every closure that a node reachable from the root holds. -/
def Value.graph (h : Heap) (r : Addr) : List Addr :=
  r :: (h.obj r).nodes.flatMap (fun x => x._backward.nodes)

/-- Two heaps hold the same objects up to the member `grad`, the same
numbers, and the same `grad` in the objects listed in `ps`. -/
def Heap.same_on (ps : List Addr) (h g : Heap) : Prop :=
  h.num = g.num ∧ (∀ q, (h.obj q).set_grad 0 = (g.obj q).set_grad 0) ∧
    ∀ q ∈ ps, (h.obj q).grad = (g.obj q).grad

/-! ## The network layer of `src/include/nn.hpp` -/

/-- Member `Module::zero_grad`: `param->grad = 0` for every pointer that
`parameters()` returns. -/
def zero_grad (h : Heap) (params : List Addr) : Heap :=
  params.foldl (fun g p => g.set_grad p 0) h

/-- Class `Neuron`: the elements of the vector `w` and the member `b`, by
address, and the flag `nonlin`. -/
structure Neuron where
  w : List Addr
  b : Addr
  nonlin : Bool

/-- Class `Layer`: the vector `neurons`. -/
structure Layer where
  neurons : List Neuron

/-- Class `MLP`: the vector `layers`. -/
structure MLP where
  layers : List Layer

/-- Constructor `Neuron(int nin, bool nonlin)`: `nin` times
`w.push_back(Value(dis(gen)))`, the loop running while `i < nin`, then
`b = Value(0)`.  The values drawn from the random generator are the
parameter `dis`. -/
def Neuron.ctor (h : Heap) (dis : Nat → ℚ) (nin : ℤ) (nonlin : Bool) : Heap × Neuron :=
  let r := (List.range nin.toNat).foldl
    (fun (acc : Heap × List Addr) i => ((acc.1.declare (dis i)).1, acc.2 ++ [acc.1.next]))
    (h, [])
  ((r.1.declare 0).1, ⟨r.2, r.1.next, nonlin⟩)

/-- The objects that `Neuron::parameters` is written to point at: the
elements of `w`, then `b`.  The member itself hands the range of `Value`
elements `w.begin()`, `w.end()` to `insert` of a `vector<Value*>`, which no
compiler accepts; nothing is claimed here of what it returns. -/
def Neuron.parameters (n : Neuron) : List Addr :=
  n.w ++ [n.b]

/-- The number `sum + this->b.data` of `Neuron::forward`: the loop
`for (int i = 0; i < x.size(); i++) sum += x[i].data * this->w[i].data;`
starting from `sum = 0`, then the addition of `b.data`.  The index `i` is a
natural number. -/
def Neuron.preact (h : Heap) (n : Neuron) (x : List Value) : ℚ :=
  (List.range x.length).foldl
    (fun s i => s + (x.getD i (Value.ctor 0 [] "")).data * (h.obj (n.w.getD i 0)).data) 0
    + (h.obj n.b).data

/-- Member `Neuron::forward(vector<Value> x)`: throws when the sizes differ;
otherwise builds the local `Value act = sum + this->b.data` from a number and
returns `act.relu()` or a copy of `act`. -/
def Neuron.forward (h : Heap) (n : Neuron) (x : List Value) : Except String (Heap × Addr) :=
  if x.length ≠ n.w.length then .error "Input size mismatch"
  else
    let act := h.declare (Neuron.preact h n x)
    if n.nonlin then .ok (Value.relu act.1 act.2)
    else .ok (act.1.alloc (act.1.obj act.2), act.1.next)

/-- A `Value` that is cut off from the objects older than `base`: its recorded
parents are leaves and its closure writes only to objects at `base` or
later. -/
def Value.local_from (base : Addr) (v : Value) : Prop :=
  (∀ c ∈ v._prev, c._prev = [] ∧ c._backward = .leaf) ∧
    ∀ t ∈ v._backward.targets, base ≤ t

/-- Constructor `Layer(int nin, int nout, bool nonlin)`: `nout` times
`neurons.push_back(Neuron(nin, nonlin))`. -/
def Layer.ctor (h : Heap) (dis : Nat → Nat → ℚ) (nin nout : ℤ) (nonlin : Bool) :
    Heap × Layer :=
  let r := (List.range nout.toNat).foldl
    (fun (acc : Heap × List Neuron) i =>
      ((Neuron.ctor acc.1 (dis i) nin nonlin).1, acc.2 ++ [(Neuron.ctor acc.1 (dis i) nin nonlin).2]))
    (h, [])
  (r.1, ⟨r.2⟩)

/-- The objects that `Layer::parameters` collects: those of the neurons, in
order. -/
def Layer.parameters (l : Layer) : List Addr :=
  l.neurons.flatMap Neuron.parameters

/-- The loop of `Layer::forward`: `out.push_back(neuron.forward(x))` for every
neuron; the element pushed is a copy of the returned `Value`. -/
def Layer.forward_loop (x : List Value) :
    List Neuron → Heap × List Addr → Except String (Heap × List Addr)
  | [], acc => .ok acc
  | n :: rest, acc =>
    match Neuron.forward acc.1 n x with
    | .error e => .error e
    | .ok r => Layer.forward_loop x rest (r.1.alloc (r.1.obj r.2), acc.2 ++ [r.1.next])

/-- Member `Layer::forward(vector<Value> x)`; returns the elements of `out`
by address. -/
def Layer.forward (h : Heap) (l : Layer) (x : List Value) : Except String (Heap × List Addr) :=
  Layer.forward_loop x l.neurons (h, [])

/-- Constructor `MLP(int nin, vector<int>& nouts)`: `sz` is `nin` followed by
`nouts`; for every index `i` of `nouts` the layer `Layer(sz[i], sz[i+1],
nonlin)` is pushed, with `nonlin = (i != nouts.size() - 1)`. -/
def MLP.ctor (h : Heap) (dis : Nat → Nat → Nat → ℚ) (nin : ℤ) (nouts : List ℤ) : Heap × MLP :=
  let sz := nin :: nouts
  let r := (List.range nouts.length).foldl
    (fun (acc : Heap × List Layer) i =>
      ((Layer.ctor acc.1 (dis i) (sz.getD i 0) (sz.getD (i + 1) 0)
          (decide (i ≠ nouts.length - 1))).1,
        acc.2 ++ [(Layer.ctor acc.1 (dis i) (sz.getD i 0) (sz.getD (i + 1) 0)
          (decide (i ≠ nouts.length - 1))).2]))
    (h, [])
  (r.1, ⟨r.2⟩)

/-- The objects that `MLP::parameters` collects: those of the layers, in
order. -/
def MLP.parameters (mlp : MLP) : List Addr :=
  mlp.layers.flatMap Layer.parameters

/-- The loop of `MLP::forward`: `out = layer.forward(out)` for every layer;
the argument is passed by value. -/
def MLP.forward_loop : List Layer → Heap × List Addr → Except String (Heap × List Addr)
  | [], acc => .ok acc
  | l :: rest, acc =>
    match Layer.forward acc.1 l (acc.2.map acc.1.obj) with
    | .error e => .error e
    | .ok r => MLP.forward_loop rest r

/-- The statement `vector<Value> out = x;`: the elements of `out` are copies
of the elements of `x`. -/
def copy_vector (h : Heap) (x : List Value) : Heap × List Addr :=
  x.foldl (fun (acc : Heap × List Addr) v => (acc.1.alloc v, acc.2 ++ [acc.1.next])) (h, [])

/-- Member `MLP::forward(vector<Value> x)`; returns the elements of `out` by
address. -/
def MLP.forward (h : Heap) (mlp : MLP) (x : List Value) : Except String (Heap × List Addr) :=
  MLP.forward_loop mlp.layers (copy_vector h x)

/-- The size of a neuron: the number of its weights, and its flag. -/
def Neuron.shape (n : Neuron) : Nat × Bool :=
  (n.w.length, n.nonlin)

/-- The sizes of the neurons of a layer, in order. -/
def Layer.shape (l : Layer) : List (Nat × Bool) :=
  l.neurons.map Neuron.shape

/-! ## Members of a modified object -/

section Members

variable (v : Value) (g : ℚ) (c : Closure)

@[simp] theorem Value.data_mk (d x : ℚ) (p : List Value) (o : String) (b : Closure) :
    (Value.mk d x p o b).data = d := rfl

@[simp] theorem Value.grad_mk (d x : ℚ) (p : List Value) (o : String) (b : Closure) :
    (Value.mk d x p o b).grad = x := rfl

@[simp] theorem Value.prev_mk (d x : ℚ) (p : List Value) (o : String) (b : Closure) :
    (Value.mk d x p o b)._prev = p := rfl

@[simp] theorem Value.backward_mk (d x : ℚ) (p : List Value) (o : String) (b : Closure) :
    (Value.mk d x p o b)._backward = b := rfl

@[simp] theorem Value.set_grad_mk (d x : ℚ) (p : List Value) (o : String) (b : Closure) :
    (Value.mk d x p o b).set_grad g = Value.mk d g p o b := rfl

@[simp] theorem Value.set_backward_mk (d x : ℚ) (p : List Value) (o : String) (b : Closure) :
    (Value.mk d x p o b).set_backward c = Value.mk d x p o c := rfl

@[simp] theorem Value.data_set_grad : (v.set_grad g).data = v.data := by
  cases v; rfl

@[simp] theorem Value.grad_set_grad : (v.set_grad g).grad = g := by
  cases v; rfl

@[simp] theorem Value.prev_set_grad : (v.set_grad g)._prev = v._prev := by
  cases v; rfl

@[simp] theorem Value.op_set_grad : (v.set_grad g)._op = v._op := by
  cases v; rfl

@[simp] theorem Value.backward_set_grad : (v.set_grad g)._backward = v._backward := by
  cases v; rfl

@[simp] theorem Value.data_set_backward : (v.set_backward c).data = v.data := by
  cases v; rfl

@[simp] theorem Value.grad_set_backward : (v.set_backward c).grad = v.grad := by
  cases v; rfl

@[simp] theorem Value.prev_set_backward : (v.set_backward c)._prev = v._prev := by
  cases v; rfl

@[simp] theorem Value.backward_set_backward : (v.set_backward c)._backward = c := by
  cases v; rfl

@[simp] theorem Value.data_ctor (d : ℚ) (l : List Value) (o : String) :
    (Value.ctor d l o).data = d := rfl

@[simp] theorem Value.grad_ctor (d : ℚ) (l : List Value) (o : String) :
    (Value.ctor d l o).grad = 0 := rfl

@[simp] theorem Value.prev_ctor (d : ℚ) (l : List Value) (o : String) :
    (Value.ctor d l o)._prev = set_of l := rfl

@[simp] theorem Value.backward_ctor (d : ℚ) (l : List Value) (o : String) :
    (Value.ctor d l o)._backward = .leaf := rfl

end Members

/-! ## Reading the heap after a write -/

section HeapReads

variable (h : Heap) (v : Value) (p q : Addr) (x : ℚ)

@[simp] theorem Heap.next_alloc : (h.alloc v).next = h.next + 1 := rfl

@[simp] theorem Heap.next_set_grad : (h.set_grad p x).next = h.next := rfl

@[simp] theorem Heap.next_add_grad : (h.add_grad p x).next = h.next := rfl

@[simp] theorem Heap.num_alloc : (h.alloc v).num = h.num := rfl

@[simp] theorem Heap.num_set_grad : (h.set_grad p x).num = h.num := rfl

@[simp] theorem Heap.num_add_grad : (h.add_grad p x).num = h.num := rfl

@[simp] theorem Heap.next_num_alloc : (h.alloc v).next_num = h.next_num := rfl

@[simp] theorem Heap.obj_bind (k : Exponent) : (h.bind k).obj = h.obj := rfl

@[simp] theorem Heap.next_bind (k : Exponent) : (h.bind k).next = h.next := rfl

@[simp] theorem Heap.num_bind (k : Exponent) :
    (h.bind k).num = Function.update h.num h.next_num k := rfl

@[simp] theorem Heap.obj_bind_alloc_next (k : Exponent) :
    ((h.bind k).alloc v).obj h.next = v := by
  simp [Heap.alloc]

@[simp] theorem Heap.obj_assign_num (e : Addr) (k : Exponent) :
    (h.assign_num e k).obj = h.obj := rfl

@[simp] theorem Heap.num_assign_num (e : Addr) (k : Exponent) :
    (h.assign_num e k).num = Function.update h.num e k := rfl

@[simp] theorem Heap.next_assign_num (e : Addr) (k : Exponent) :
    (h.assign_num e k).next = h.next := rfl

theorem Heap.obj_alloc : (h.alloc v).obj q = if q = h.next then v else h.obj q := by
  simp [Heap.alloc, Function.update]

@[simp] theorem Heap.obj_alloc_next : (h.alloc v).obj h.next = v := by
  simp [Heap.obj_alloc]

theorem Heap.obj_alloc_of_lt (hq : q < h.next) : (h.alloc v).obj q = h.obj q := by
  simp [Heap.obj_alloc, Nat.ne_of_lt hq]

theorem Heap.obj_set_grad :
    (h.set_grad p x).obj q = if q = p then (h.obj p).set_grad x else h.obj q := by
  by_cases hqp : q = p
  · subst hqp; simp [Heap.set_grad]
  · simp [Heap.set_grad, Function.update, hqp]

theorem Heap.obj_add_grad :
    (h.add_grad p x).obj q
      = if q = p then (h.obj p).set_grad ((h.obj p).grad + x) else h.obj q := by
  simp [Heap.add_grad, Heap.obj_set_grad]

end HeapReads

/-! ## The traversal over a node whose parents are leaves -/

/-- Running closures that are all the constructor's no-op leaves the heap as
it is. -/
theorem foldl_call_leaf (m : Libm) (l : List Value) (g : Heap)
    (hl : ∀ x ∈ l, x._backward = .leaf) :
    l.foldl (fun g node => node._backward.call m g) g = g := by
  induction l generalizing g with
  | nil => rfl
  | cons x xs ih =>
    have hx : x._backward = .leaf := hl x (List.mem_cons_self x xs)
    have hxs : ∀ y ∈ xs, y._backward = .leaf := fun y hy => hl y (List.mem_cons_of_mem x hy)
    simp only [List.foldl_cons, hx, Closure.call]
    exact ih g hxs

/-- A node without parents is appended once, unless an equivalent node was
visited. -/
theorem topo_sort_no_parents (c : Value) (st : List Value × List Value)
    (hc : c._prev = []) :
    topo_sort c st = if set_find c st.1 then st else (set_insert c st.1, st.2 ++ [c]) := by
  cases c with
  | mk d g p o b =>
    simp only [Value._prev] at hc
    subst hc
    simp [topo_sort, topo_sort_children]

/-- Over parents that are leaves, the loop of `topo_sort` appends only some
of these parents. -/
theorem topo_sort_children_leaves (cs : List Value) :
    ∀ st : List Value × List Value,
      (∀ c ∈ cs, c._prev = [] ∧ c._backward = .leaf) →
      ∃ T, (topo_sort_children cs st).2 = st.2 ++ T ∧ ∀ x ∈ T, x._backward = .leaf := by
  induction cs with
  | nil =>
    intro st _
    exact ⟨[], by simp [topo_sort_children], by simp⟩
  | cons c rest ih =>
    intro st hcs
    have hc := hcs c (List.mem_cons_self c rest)
    have hrest : ∀ y ∈ rest, y._prev = [] ∧ y._backward = .leaf :=
      fun y hy => hcs y (List.mem_cons_of_mem c hy)
    rw [topo_sort_children, topo_sort_no_parents c st hc.1]
    by_cases hf : set_find c st.1 = true
    · simpa [hf] using ih st hrest
    · obtain ⟨T, hT, hleafT⟩ := ih (set_insert c st.1, st.2 ++ [c]) hrest
      refine ⟨c :: T, ?_, ?_⟩
      · simp [hf, hT]
      · intro x hx
        rcases List.mem_cons.mp hx with rfl | hx
        · exact hc.2
        · exact hleafT x hx

/-- On a fresh state the root is always appended, after what its parents
contribute. -/
theorem topo_sort_root (v : Value) :
    topo_sort v ([], []) =
      ((topo_sort_children v._prev ([v], [])).1,
        (topo_sort_children v._prev ([v], [])).2 ++ [v]) := by
  cases v with
  | mk d g p o b => simp [topo_sort, set_find, set_insert, Value._prev]

/-- When every recorded parent of the root is a leaf, `backward()` amounts to
seeding the root and invoking the root's closure. -/
theorem backward_of_leaf_parents (m : Libm) (h : Heap) (r : Addr)
    (hp : ∀ c ∈ (h.obj r)._prev, c._prev = [] ∧ c._backward = .leaf) :
    Value.backward m h r = (h.obj r)._backward.call m (h.set_grad r 1) := by
  unfold Value.backward Value.topo
  obtain ⟨T, hT, hleafT⟩ := topo_sort_children_leaves (h.obj r)._prev ([h.obj r], []) hp
  have hrev : ∀ x ∈ T.reverse, x._backward = .leaf :=
    fun x hx => hleafT x (List.mem_reverse.mp hx)
  rw [topo_sort_root, hT]
  simp only [List.nil_append, List.reverse_append, List.reverse_cons, List.reverse_nil,
    List.singleton_append, List.foldl_cons]
  exact foldl_call_leaf m T.reverse _ hrev

/-- The elements of a set built from a sequence are elements of the
sequence. -/
theorem mem_set_insert (v x : Value) (s : List Value) (hx : x ∈ set_insert v s) :
    x = v ∨ x ∈ s := by
  induction s with
  | nil => simpa [set_insert] using hx
  | cons w ws ih =>
    unfold set_insert at hx
    split_ifs at hx
    · rcases List.mem_cons.mp hx with rfl | hx
      · exact Or.inl rfl
      · exact Or.inr hx
    · rcases List.mem_cons.mp hx with rfl | hx
      · exact Or.inr (List.mem_cons_self _ _)
      · rcases ih hx with rfl | hmem
        · exact Or.inl rfl
        · exact Or.inr (List.mem_cons_of_mem _ hmem)
    · exact Or.inr hx

/-- The elements of a set built by `set_of` come from the sequence. -/
theorem mem_set_of (l : List Value) (x : Value) (hx : x ∈ set_of l) : x ∈ l := by
  unfold set_of at hx
  have key : ∀ (l s : List Value), x ∈ l.foldl (fun s v => set_insert v s) s → x ∈ s ∨ x ∈ l := by
    intro l
    induction l with
    | nil => intro s hs; exact Or.inl hs
    | cons v vs ih =>
      intro s hs
      rcases ih (set_insert v s) hs with h1 | h1
      · rcases mem_set_insert v x s h1 with rfl | h2
        · exact Or.inr (List.mem_cons_self _ _)
        · exact Or.inl h2
      · exact Or.inr (List.mem_cons_of_mem _ h1)
  rcases key l [] hx with h1 | h1
  · simp at h1
  · exact h1

/-- The parents recorded by a unary operator on a leaf, or by a binary
operator on two leaves, are leaves. -/
theorem leaf_parents_of_set (l : List Value) (hl : ∀ x ∈ l, x._prev = [] ∧ x._backward = .leaf) :
    ∀ c ∈ set_of (set_of l), c._prev = [] ∧ c._backward = .leaf :=
  fun c hc => hl c (mem_set_of _ _ (mem_set_of _ _ hc))

/-- A set built from one element holds that element. -/
theorem set_of_singleton (v : Value) : set_of (set_of [v]) = [v] := by
  simp [set_of, set_insert]

/-- A set built from two elements with the same `data` holds the first one
only. -/
theorem set_of_pair_equal_data (v w : Value) (hvw : v.data = w.data) :
    set_of (set_of [v, w]) = [v] := by
  simp [set_of, set_insert, Value.lt, hvw]

/-! ## Reachable nodes and the order of invocation -/

mutual
/-- What `topo_sort` appends is reachable from the node it is called on. -/
theorem mem_topo_sort : ∀ (v : Value) (st : List Value × List Value) (x : Value),
    x ∈ (topo_sort v st).2 → x ∈ st.2 ∨ x ∈ v.nodes
  | .mk d g p o b, st, x, hx => by
    rw [topo_sort] at hx
    split at hx
    · exact Or.inl hx
    · simp only [List.mem_append, List.mem_singleton] at hx
      rcases hx with hx | hx
      · rcases mem_topo_sort_children p _ x hx with h1 | h1
        · exact Or.inl h1
        · exact Or.inr (by rw [Value.nodes]; exact List.mem_cons_of_mem _ h1)
      · exact Or.inr (by rw [Value.nodes, hx]; exact List.mem_cons_self _ _)
/-- What the loop of `topo_sort` appends is reachable from the parents it runs
over. -/
theorem mem_topo_sort_children : ∀ (cs : List Value) (st : List Value × List Value) (x : Value),
    x ∈ (topo_sort_children cs st).2 → x ∈ st.2 ∨ x ∈ nodes_of cs
  | [], st, x, hx => by
    rw [topo_sort_children] at hx
    exact Or.inl hx
  | c :: rest, st, x, hx => by
    rw [topo_sort_children] at hx
    rcases mem_topo_sort_children rest _ x hx with h1 | h1
    · rcases mem_topo_sort c st x h1 with h2 | h2
      · exact Or.inl h2
      · exact Or.inr (by rw [nodes_of]; exact List.mem_append_left _ h2)
    · exact Or.inr (by rw [nodes_of]; exact List.mem_append_right _ h1)
end

/-- Membership in the nodes reachable from a list. -/
theorem mem_nodes_of (cs : List Value) (x : Value) :
    x ∈ nodes_of cs ↔ ∃ c ∈ cs, x ∈ c.nodes := by
  induction cs with
  | nil => simp [nodes_of]
  | cons c rest ih => simp [nodes_of, ih]

/-- A node without recorded parents reaches itself only. -/
theorem nodes_no_parents (c : Value) (hc : c._prev = []) : c.nodes = [c] := by
  cases c with
  | mk d g p o b =>
    simp only [Value.prev_mk] at hc
    subst hc
    simp [Value.nodes, nodes_of]

/-- The nodes reachable from a node: the node and what its recorded parents
reach. -/
theorem mem_nodes (v x : Value) : x ∈ v.nodes ↔ x = v ∨ x ∈ nodes_of v._prev := by
  cases v with
  | mk d g p o b => simp [Value.nodes]

/-- From a set of leaves only leaves are reached. -/
theorem nodes_of_leaf_set (l : List Value)
    (hl : ∀ c ∈ l, c._prev = [] ∧ c._backward = .leaf) (x : Value)
    (hx : x ∈ nodes_of (set_of (set_of l))) : x._backward = .leaf := by
  rw [mem_nodes_of] at hx
  obtain ⟨c, hc, hxc⟩ := hx
  have hcl := hl c (mem_set_of _ _ (mem_set_of _ _ hc))
  rw [nodes_no_parents c hcl.1, List.mem_singleton] at hxc
  rw [hxc]
  exact hcl.2

/-- The elements of `topo` are the root, placed last, and before it nodes
reachable from the recorded parents of the root; `backward()` invokes the
closure of the root first, on the seeded heap, then the closures of the
others from the last to the first. -/
theorem backward_root_first (m : Libm) (h : Heap) (r : Addr) :
    ∃ T : List Value, (∀ x ∈ T, x ∈ nodes_of (h.obj r)._prev) ∧
      Value.topo h r = T ++ [h.obj r] ∧
      Value.backward m h r
        = T.reverse.foldl (fun g node => node._backward.call m g)
            ((h.obj r)._backward.call m (h.set_grad r 1)) := by
  refine ⟨(topo_sort_children (h.obj r)._prev ([h.obj r], [])).2, ?_, ?_, ?_⟩
  · intro x hx
    rcases mem_topo_sort_children _ _ x hx with h1 | h1
    · simp at h1
    · exact h1
  · simp [Value.topo, topo_sort_root]
  · simp [Value.backward, Value.topo, topo_sort_root]

/-- A property of the heap kept by every closure of a list is kept by
running the list. -/
theorem foldl_call_invariant (m : Libm) (Q : Heap → Prop) (S : Closure → Prop)
    (hS : ∀ c g, S c → Q g → Q (c.call m g)) (l : List Value)
    (hl : ∀ x ∈ l, S x._backward) (g : Heap) (hg : Q g) :
    Q (l.foldl (fun g node => node._backward.call m g) g) := by
  induction l generalizing g with
  | nil => exact hg
  | cons x xs ih =>
    simp only [List.foldl_cons]
    exact ih (fun y hy => hl y (List.mem_cons_of_mem x hy)) _
      (hS _ g (hl x (List.mem_cons_self x xs)) hg)

/-! ## The claims -/

/-- C1 (fails on the code): on the graph `R = (a + b) * c` over the leaves
`a = 2`, `b = 3`, `c = 4`, all grads 0, `R.data` is 20 and `R.backward()`
leaves `b.grad = 0` and `c.grad = 0`, while the partial derivatives of `R`
with respect to `b` and `c` are 4 and 5: each operator copies its right
operand into the local `other_value`, and the update meant for the operand
is made through the reference to that local. -/
theorem backward_sum_times_leaf (m : Libm) (h : Heap) :
    let a := h.next
    let b := h.next + 1
    let c := h.next + 2
    let h3 := (((h.declare 2).1.declare 3).1.declare 4).1
    let s := Value.add h3 a (.value b)
    let r := Value.mul s.1 s.2 (.value c)
    let g := Value.backward m r.1 r.2
    (r.1.obj r.2).data = 20 ∧ (s.1.obj s.2)._backward = .add a (c + 1) (c + 2) ∧
      (r.1.obj r.2)._backward = .mul (c + 2) (c + 3) (c + 4) ∧
      (g.obj b).grad = 0 ∧ (g.obj c).grad = 0 := by
  norm_num [Nat.add_assoc, Value.backward, Value.topo, Value.add, Value.mul, Heap.declare,
    other_value, Value.ctor, set_of, set_insert, set_find, topo_sort, topo_sort_children,
    Value.lt, Closure.call, Heap.obj_alloc, Heap.obj_set_grad, Heap.obj_add_grad]

/-- C2 (fails on the code): for a leaf `x` with grad 0, `y = x*x` has
`data = x.data * x.data` and records one parent; its closure holds `x`, the
local copy `other_value` of `x` (a reference that dangles) and `y`.
`y.backward()` is the seed followed by one invocation of that closure, and an
invocation adds to `x.grad` one term only, `out.grad` times the `data` read
through the dangling reference; the term `this->data * out.grad` is added
to the grad behind the dangling reference.  So `x.grad` is not made of two
contributions of `x.data`. -/
theorem backward_square (m : Libm) (h : Heap) (d : ℚ) :
    let x := h.next
    let y := Value.mul (h.declare d).1 x (.value x)
    let g := Value.backward m y.1 y.2
    (y.1.obj y.2).data = d * d ∧ (y.1.obj y.2)._prev = [Value.ctor d [] ""] ∧
      (y.1.obj y.2)._backward = .mul x (x + 1) (x + 2) ∧
      (Closure.mul x (x + 1) (x + 2)).dangling = [x + 1] ∧
      g = (Closure.mul x (x + 1) (x + 2)).call m (y.1.set_grad y.2 1) ∧
      (∀ k : Heap, (((Closure.mul x (x + 1) (x + 2)).call m k).obj x).grad
        = (k.obj x).grad + (k.obj (x + 1)).data * (k.obj (x + 2)).grad) ∧
      (∀ k : Heap, (((Closure.mul x (x + 1) (x + 2)).call m k).obj (x + 1)).grad
        = (k.obj (x + 1)).grad + (k.obj x).data * (k.obj (x + 2)).grad) := by
  intro x y g
  have hprev : (y.1.obj y.2)._prev = [Value.ctor d [] ""] := by
    simp [y, x, Value.mul, Heap.declare, other_value, Heap.obj_alloc, set_of_pair_equal_data]
  have hcl : (y.1.obj y.2)._backward = .mul x (x + 1) (x + 2) := by
    simp [y, x, Value.mul, Heap.declare, other_value, Heap.obj_alloc, Nat.add_assoc]
  have hg : g = (Closure.mul x (x + 1) (x + 2)).call m (y.1.set_grad y.2 1) := by
    rw [← hcl]
    apply backward_of_leaf_parents
    rw [hprev]
    intro c hc
    rw [List.mem_singleton.mp hc]
    exact ⟨rfl, rfl⟩
  refine ⟨?_, hprev, hcl, rfl, hg, ?_, ?_⟩
  · simp [y, x, Value.mul, Heap.declare, other_value, Heap.obj_alloc]
  · intro k
    simp [Closure.call, Heap.obj_add_grad]
  · intro k
    simp [Closure.call, Heap.obj_add_grad]

/-- C3 (fails on the code): for two distinct leaves `a`, `b` with grad 0,
`out = a + b` has `out.data = a.data + b.data` and its closure adds
`out.grad` to `a.grad`; the second update goes to `other_value`, the local
copy of `b` made by `operator+`, not to `b`.  After `(a + b).backward()`:
`a.grad = 1`, `b.grad = 0`, and the copy holds the 1. -/
theorem backward_add_leaves (m : Libm) (h : Heap) (da db : ℚ) :
    let a := h.next
    let b := h.next + 1
    let h2 := ((h.declare da).1.declare db).1
    let r := Value.add h2 a (.value b)
    let g := Value.backward m r.1 r.2
    (r.1.obj r.2).data = da + db ∧ (r.1.obj r.2)._backward = .add a (b + 1) (b + 2) ∧
      (g.obj a).grad = 1 ∧ (g.obj b).grad = 0 ∧ (g.obj (b + 1)).grad = 1 := by
  intro a b h2 r g
  have hg : g = (r.1.obj r.2)._backward.call m (r.1.set_grad r.2 1) := by
    apply backward_of_leaf_parents
    have hp : (r.1.obj r.2)._prev
        = set_of (set_of [Value.ctor da [] "", Value.ctor db [] ""]) := by
      simp [r, h2, a, b, Value.add, Heap.declare, other_value, Heap.obj_alloc, Nat.add_assoc]
    rw [hp]
    apply leaf_parents_of_set
    intro x hx
    simp only [List.mem_cons, List.mem_singleton, List.not_mem_nil, or_false] at hx
    rcases hx with rfl | rfl <;> exact ⟨rfl, rfl⟩
  refine ⟨?_, ?_, ?_, ?_, ?_⟩
  · simp [r, h2, a, b, Value.add, Heap.declare, other_value, Heap.obj_alloc, Nat.add_assoc]
  · simp [r, h2, a, b, Value.add, Heap.declare, other_value, Heap.obj_alloc, Nat.add_assoc]
  all_goals
    rw [hg]
    simp [r, h2, a, b, Value.add, Heap.declare, other_value, Heap.obj_alloc, Heap.obj_set_grad,
      Heap.obj_add_grad, Closure.call, Nat.add_assoc]

/-- C4 (fails on the code): for two distinct leaves `a`, `b` with grad 0,
`out = a * b` has `out.data = a.data * b.data`; its closure holds `a`, the
local copy `other_value` of `b` (a reference that dangles) and `out`, not
`b`.  The update `this->data * out.grad` meant for `b` is added to the grad
behind that reference, and after `(a * b).backward()` the grad of `b` is 0,
not `a.data`. -/
theorem backward_mul_leaves (m : Libm) (h : Heap) (da db : ℚ) :
    let a := h.next
    let b := h.next + 1
    let h2 := ((h.declare da).1.declare db).1
    let r := Value.mul h2 a (.value b)
    let g := Value.backward m r.1 r.2
    (r.1.obj r.2).data = da * db ∧ (r.1.obj r.2)._backward = .mul a (b + 1) (b + 2) ∧
      (Closure.mul a (b + 1) (b + 2)).dangling = [b + 1] ∧
      b ∉ (Closure.mul a (b + 1) (b + 2)).targets ∧
      (∀ k : Heap, (((Closure.mul a (b + 1) (b + 2)).call m k).obj (b + 1)).grad
        = (k.obj (b + 1)).grad + (k.obj a).data * (k.obj (b + 2)).grad) ∧
      (g.obj b).grad = 0 := by
  intro a b h2 r g
  have hg : g = (r.1.obj r.2)._backward.call m (r.1.set_grad r.2 1) := by
    apply backward_of_leaf_parents
    have hp : (r.1.obj r.2)._prev
        = set_of (set_of [Value.ctor da [] "", Value.ctor db [] ""]) := by
      simp [r, h2, a, b, Value.mul, Heap.declare, other_value, Heap.obj_alloc, Nat.add_assoc]
    rw [hp]
    apply leaf_parents_of_set
    intro x hx
    simp only [List.mem_cons, List.mem_singleton, List.not_mem_nil, or_false] at hx
    rcases hx with rfl | rfl <;> exact ⟨rfl, rfl⟩
  refine ⟨?_, ?_, rfl, ?_, ?_, ?_⟩
  · simp [r, h2, a, b, Value.mul, Heap.declare, other_value, Heap.obj_alloc, Nat.add_assoc]
  · simp [r, h2, a, b, Value.mul, Heap.declare, other_value, Heap.obj_alloc, Nat.add_assoc]
  · simp [Closure.targets, a, b]
  · intro k
    simp [Closure.call, Heap.obj_add_grad, a, b, Nat.add_assoc]
  · rw [hg]
    simp [r, h2, a, b, Value.mul, Heap.declare, other_value, Heap.obj_alloc, Heap.obj_set_grad,
      Heap.obj_add_grad, Closure.call, Nat.add_assoc]

/-- C5 (fails on the code): when two distinct leaves `a` and `b` carry the
same `data`, `a + b` and `a * b` record one parent only (the copy of `a`):
the `set<Value>` of parents is ordered by `data`, so the copy of `b` is
equivalent to the copy of `a` and is not inserted.  A `Value` built from a
literal has no parents. -/
theorem equal_data_operands_one_parent (h : Heap) (d : ℚ) :
    let a := h.next
    let b := h.next + 1
    let h2 := ((h.declare d).1.declare d).1
    a ≠ b ∧
      ((Value.add h2 a (.value b)).1.obj (Value.add h2 a (.value b)).2)._prev
        = [Value.ctor d [] ""] ∧
      ((Value.mul h2 a (.value b)).1.obj (Value.mul h2 a (.value b)).2)._prev
        = [Value.ctor d [] ""] ∧
      (h2.obj a)._prev = [] ∧ (h2.obj b)._prev = [] := by
  intro a b h2
  refine ⟨?_, ?_, ?_, ?_, ?_⟩
  · simp [a, b]
  · simp [h2, a, b, Value.add, Heap.declare, other_value, Heap.obj_alloc, Nat.add_assoc,
      set_of_pair_equal_data]
  · simp [h2, a, b, Value.mul, Heap.declare, other_value, Heap.obj_alloc, Nat.add_assoc,
      set_of_pair_equal_data]
  · simp [h2, a, Heap.declare, Heap.obj_alloc, set_of]
  · simp [h2, b, Heap.declare, Heap.obj_alloc, set_of]

/-- C6 (fails on the code): for `a = 5` and `R = (a * 1.0) * 1.0` the
sequence built by `topo_sort` holds two nodes, a literal leaf and `R`: the
node `a * 1.0` is reachable from `R` but has the same `data` (5) as `R`, so
`visited.find` reports it as visited and it is never appended.  Its closure
is not invoked, and `a.grad` is 0 after `R.backward()`. -/
theorem topo_skips_equal_data_node (m : Libm) (h : Heap) :
    let a := h.next
    let t := Value.mul (h.declare 5).1 a (.literal 1)
    let r := Value.mul t.1 t.2 (.literal 1)
    let g := Value.backward m r.1 r.2
    (t.1.obj t.2)._backward = .mul a (a + 1) (a + 2) ∧
      (t.1.obj t.2) ∈ (r.1.obj r.2)._prev ∧
      (Value.topo r.1 r.2).map Value._backward = [.leaf, .mul (a + 2) (a + 3) (a + 4)] ∧
      (g.obj (a + 2)).grad = 1 ∧ (g.obj a).grad = 0 := by
  norm_num [Nat.add_assoc, Value.backward, Value.topo, Value.mul, Heap.declare,
    other_value, Value.ctor, set_of, set_insert, set_find, topo_sort, topo_sort_children,
    Value.lt, Closure.call, Heap.obj_alloc, Heap.obj_set_grad, Heap.obj_add_grad]

/-- C7: for a leaf `a` with grad 0, `a.relu()` has `data = max(0, a.data)`,
and after `a.relu().backward()` the grad of `a` is 1 when `a.data > 0` and 0
otherwise. -/
theorem backward_relu_leaf (m : Libm) (h : Heap) (a : Addr) (d : ℚ)
    (ha : a < h.next) (hleaf : h.obj a = Value.ctor d [] "") :
    ((Value.relu h a).1.obj (Value.relu h a).2).data = max 0 d ∧
      ((Value.backward m (Value.relu h a).1 (Value.relu h a).2).obj a).grad
        = if d > 0 then 1 else 0 := by
  have hne : a ≠ h.next := Nat.ne_of_lt ha
  have hne2 : h.next ≠ a := fun e => hne e.symm
  constructor
  · simp [Value.relu, hleaf]
  · rw [backward_of_leaf_parents]
    · simp [Value.relu, hleaf, Closure.call, Heap.obj_alloc, Heap.obj_set_grad,
        Heap.obj_add_grad, hne, hne2]
    · intro c hc
      simp only [Value.relu, Heap.obj_alloc_next, Value.prev_set_backward, Value.prev_ctor] at hc
      have hc2 := mem_set_of _ _ (mem_set_of _ _ hc)
      simp only [hleaf, List.mem_singleton] at hc2
      subst hc2
      exact ⟨rfl, rfl⟩

/-- C7 at `a.data = 2`, the leaf being the only object declared: the result
has `data = 2` and after `backward()` the grad of `a` is 1. -/
theorem backward_relu_leaf_witness :
    (0 : Addr) < (Heap.empty.declare 2).1.next ∧
      (Heap.empty.declare 2).1.obj 0 = Value.ctor 2 [] "" ∧
      ((Value.relu (Heap.empty.declare 2).1 0).1.obj
        (Value.relu (Heap.empty.declare 2).1 0).2).data = 2 ∧
      ((Value.backward Libm.sample (Value.relu (Heap.empty.declare 2).1 0).1
        (Value.relu (Heap.empty.declare 2).1 0).2).obj 0).grad = 1 := by
  have hw := backward_relu_leaf Libm.sample (Heap.empty.declare 2).1 0 2 (by decide) (by rfl)
  refine ⟨by decide, by rfl, ?_, ?_⟩
  · rw [hw.1]; norm_num
  · rw [hw.2]; norm_num

/-- C8 (fails on the code): for `x = 0`, `w = 1`, `c = 0` the result
`y = (x*w + c).tanh()` has `y.data = tanh(0)`, and after `y.backward()` the
grad of `x` is 0, whatever `tanh` is: the nodes `x*w` and `x*w + c` both
carry `data = 0`, so `topo_sort` takes the first for the second (or both for
`y`, when `tanh(0) = 0`) and the closure of `x*w` is never invoked.  The
claimed value is `w * (1 - tanh(0)^2)`, which is 1. -/
theorem backward_tanh_affine_zero (m : Libm) (h : Heap) :
    let x := h.next
    let t1 := Value.mul (h.declare 0).1 x (.literal 1)
    let t2 := Value.add t1.1 t1.2 (.literal 0)
    let y := Value.tanh m t2.1 t2.2
    let g := Value.backward m y.1 y.2
    (y.1.obj y.2).data = m.tanh (0 * 1 + 0) ∧ (g.obj x).grad = 0 := by
  rcases lt_trichotomy (m.tanh 0) 0 with hv | hv | hv
  · have hv2 : ¬ (0 < m.tanh 0) := not_lt.mpr hv.le
    norm_num [Nat.add_assoc, Value.backward, Value.topo, Value.mul, Value.add, Value.tanh,
      Heap.declare, other_value, Value.ctor, set_of, set_insert, set_find, topo_sort,
      topo_sort_children, Value.lt, Closure.call, Heap.obj_alloc, Heap.obj_set_grad,
      Heap.obj_add_grad, hv, hv2]
  · norm_num [Nat.add_assoc, Value.backward, Value.topo, Value.mul, Value.add, Value.tanh,
      Heap.declare, other_value, Value.ctor, set_of, set_insert, set_find, topo_sort,
      topo_sort_children, Value.lt, Closure.call, Heap.obj_alloc, Heap.obj_set_grad,
      Heap.obj_add_grad, hv]
  · have hv2 : ¬ (m.tanh 0 < 0) := not_lt.mpr hv.le
    norm_num [Nat.add_assoc, Value.backward, Value.topo, Value.mul, Value.add, Value.tanh,
      Heap.declare, other_value, Value.ctor, set_of, set_insert, set_find, topo_sort,
      topo_sort_children, Value.lt, Closure.call, Heap.obj_alloc, Heap.obj_set_grad,
      Heap.obj_add_grad, hv, hv2]

/-- Within the range of `int` the 32-bit result is the exact one. -/
theorem Exponent.wrap_of_range (z : ℤ) (h1 : -2147483648 ≤ z) (h2 : z < 2147483648) :
    Exponent.wrap z = z := by
  unfold Exponent.wrap
  omega

/-- The result of `pow` on an exponent that passes the guard. -/
theorem Value.pow_eq (m : Libm) (h : Heap) (self : Addr) (k : Exponent)
    (hk : k.is_scalar = true) :
    Value.pow m h self k
      = .ok ((h.bind k).alloc ((Value.ctor (m.pow (h.obj self).data k.val) (set_of [h.obj self])
          ("**\x7b" ++ m.to_string k ++ "\x7d")).set_backward (.pow self h.next_num h.next)),
          h.next) := by
  simp [Value.pow, hk]

/-- For a `Value` at `a` and an exponent `k` of type `double`, or of type
`int` and above `INT_MIN`, `a.pow(k)` returns a node with
`data = pow(a.data, k)`, one recorded parent (the copy of `a`) and the closure
of `pow`, which adds `k * pow(a.data, k - 1) * out.grad` to `a.grad` as long
as the number it refers to still holds `k`; for a leaf `a` with grad 0, after
`a.pow(k).backward()` the grad of `a` is `k * pow(a.data, k - 1)`. -/
theorem Value.pow_backward_in_range (m : Libm) (h : Heap) (a : Addr) (k : Exponent)
    (hk : k.is_scalar = true)
    (hr : ∀ z : ℤ, k = .int z → -2147483648 < z ∧ z < 2147483648) :
    ∃ r : Heap × Addr, Value.pow m h a k = .ok r ∧
      (r.1.obj r.2).data = m.pow (h.obj a).data k.val ∧
      (r.1.obj r.2)._prev = [h.obj a] ∧
      (r.1.obj r.2)._backward = .pow a h.next_num r.2 ∧
      (∀ g : Heap, g.num h.next_num = k → (Closure.pow a h.next_num r.2).call m g
        = g.add_grad a (k.val * m.pow (g.obj a).data (k.val - 1) * (g.obj r.2).grad)) ∧
      (∀ d : ℚ, a < h.next → h.obj a = Value.ctor d [] "" →
        ((Value.backward m r.1 r.2).obj a).grad = k.val * m.pow d (k.val - 1)) := by
  have hpred : k.pred.val = k.val - 1 := by
    cases k with
    | int z =>
      obtain ⟨h1, h2⟩ := hr z rfl
      simp only [Exponent.pred, Exponent.val]
      rw [Exponent.wrap_of_range (z - 1) (by omega) (by omega)]
      push_cast
      ring
    | double z => simp [Exponent.pred, Exponent.val]
    | other z => simp [Exponent.pred, Exponent.val]
  refine ⟨_, Value.pow_eq m h a k hk, ?_, ?_, ?_, ?_, ?_⟩
  · simp
  · simp [set_of_singleton]
  · simp
  · intro g hg
    simp [Closure.call, hpred, hg]
  · intro d ha hleaf
    have hne : a ≠ h.next := Nat.ne_of_lt ha
    have hne2 : h.next ≠ a := fun e => hne e.symm
    rw [backward_of_leaf_parents]
    · simp [hleaf, Closure.call, Heap.obj_alloc, Heap.obj_set_grad, Heap.obj_add_grad, hne,
        hne2, hpred]
    · intro c hc
      simp only [Heap.obj_bind_alloc_next, Value.prev_set_backward, Value.prev_ctor,
        set_of_singleton, List.mem_singleton] at hc
      subst hc
      rw [hleaf]
      exact ⟨rfl, rfl⟩

/-- The closure of `pow` reads the exponent when it is invoked: after
`int k = ...; Value y = a.pow(k); k = k2; y.backward();` on a leaf `a` with
grad 0, the node `y` has `data = pow(a.data, k)` and the grad of `a` is
`k2 * pow(a.data, k2 - 1)`, with `k2 - 1` in `int` arithmetic. -/
theorem pow_reads_exponent_when_invoked (m : Libm) (h : Heap) (d : ℚ) (k k2 : ℤ) :
    let a := h.next
    let h1 := (h.declare d).1
    ∃ r : Heap × Addr, Value.pow m h1 a (.int k) = .ok r ∧
      (r.1.obj r.2).data = m.pow d k ∧
      ((Value.backward m (r.1.assign_num h.next_num (.int k2)) r.2).obj a).grad
        = k2 * m.pow d (Exponent.wrap (k2 - 1)) := by
  intro a h1
  refine ⟨_, Value.pow_eq m h1 a (.int k) rfl, ?_, ?_⟩
  · simp [h1, a, Heap.declare, Exponent.val, Heap.obj_alloc]
  · rw [backward_of_leaf_parents]
    · simp [h1, a, Heap.declare, Closure.call, Heap.obj_alloc, Heap.obj_set_grad,
        Heap.obj_add_grad, Exponent.val, Exponent.pred]
    · intro c hc
      simp [h1, a, Heap.declare, Heap.obj_alloc, set_of_singleton] at hc
      subst hc
      exact ⟨rfl, rfl⟩

/-- C9 (fails on the code): for a leaf `a` with grad 0 and the `int` exponent
`k = -2147483648` (`INT_MIN`), `a.pow(k)` has `data = pow(a.data, k)`, but
after `a.pow(k).backward()` the grad of `a` is `k * pow(a.data, 2147483647)`,
not `k * pow(a.data, k - 1)`: the closure computes `other - 1` in `int`
arithmetic, where `INT_MIN - 1` is not `-2147483649`. -/
theorem pow_int_min_backward (m : Libm) (h : Heap) (d : ℚ) :
    let a := h.next
    let h1 := (h.declare d).1
    (Exponent.int (-2147483648)).pred = .int 2147483647 ∧
      ∃ r : Heap × Addr, Value.pow m h1 a (.int (-2147483648)) = .ok r ∧
        (r.1.obj r.2).data = m.pow d (-2147483648) ∧
        (r.1.obj r.2)._backward = .pow a h.next_num r.2 ∧
        ((Value.backward m r.1 r.2).obj a).grad = -2147483648 * m.pow d 2147483647 := by
  intro a h1
  have hpred : (Exponent.int (-2147483648)).pred = .int 2147483647 := by
    simp only [Exponent.pred, Exponent.wrap]
    norm_num
  refine ⟨hpred, _, Value.pow_eq m h1 a (.int (-2147483648)) rfl, ?_, ?_, ?_⟩
  · simp [h1, a, Heap.declare, Exponent.val, Heap.obj_alloc]
  · simp [h1, a, Heap.declare, Heap.obj_alloc]
  · rw [backward_of_leaf_parents]
    · simp [h1, a, Heap.declare, Closure.call, Heap.obj_alloc, Heap.obj_set_grad,
        Heap.obj_add_grad, hpred, Exponent.val]
    · intro c hc
      simp [h1, a, Heap.declare, Heap.obj_alloc, set_of_singleton] at hc
      subst hc
      exact ⟨rfl, rfl⟩

/-- C10 (fails on the code): for leaves `a`, `b` with grad 0, binary minus is
`a + (-b)` with `-b = b * -1` (for a numeric `b`: `a + (-b)` on the negated
number); the result has `data = a.data - b.data`, and after `backward()` from
it `a.grad = 1` but `b.grad = 0`, not -1: `operator+` works on a copy of the
node `-b`, so the grad of `-b` itself stays 0 and its closure passes 0 on to
`b`. -/
theorem backward_sub_leaves (m : Libm) (h : Heap) (da db : ℚ) :
    let a := h.next
    let b := h.next + 1
    let h2 := ((h.declare da).1.declare db).1
    let r := Value.sub h2 a (.value b)
    let g := Value.backward m r.1 r.2
    r = Value.add (Value.neg h2 b).1 a (.value (Value.neg h2 b).2) ∧
      Value.sub h2 a (.literal db) = Value.add h2 a (.literal (-db)) ∧
      (r.1.obj r.2).data = da - db ∧ (g.obj a).grad = 1 ∧ (g.obj b).grad = 0 := by
  intro a b h2 r g
  refine ⟨rfl, rfl, ?_, ?_⟩
  · simp [r, h2, a, b, Value.sub, Value.neg, Value.mul, Value.add, Heap.declare, other_value,
      Heap.obj_alloc, Nat.add_assoc]
    ring
  · obtain ⟨T, hT, -, hg⟩ := backward_root_first m r.1 r.2
    have hS : ∀ (c : Closure) (k : Heap),
        (c = .leaf ∨ c = .mul (h.next + 1) (h.next + 2) (h.next + 3)) →
        ((k.obj (h.next + 3)).grad = 0 ∧ (k.obj a).grad = 1 ∧ (k.obj b).grad = 0) →
        (((c.call m k).obj (h.next + 3)).grad = 0 ∧ ((c.call m k).obj a).grad = 1 ∧
          ((c.call m k).obj b).grad = 0) := by
      rintro c k (rfl | rfl) ⟨h3, h4, h5⟩
      · exact ⟨h3, h4, h5⟩
      · simp only [a, b] at h4 h5
        simp [Closure.call, Heap.obj_add_grad, h3, h4, h5, a, b]
    have hl : ∀ x ∈ T.reverse,
        x._backward = .leaf ∨ x._backward = .mul (h.next + 1) (h.next + 2) (h.next + 3) := by
      intro x hx
      have hx2 := hT x (List.mem_reverse.mp hx)
      rw [mem_nodes_of] at hx2
      obtain ⟨c, hc, hxc⟩ := hx2
      have hc2 : c ∈ [Value.ctor da [] "",
          (Value.ctor (db * -1) (set_of [Value.ctor db [] "", Value.ctor (-1) [] ""])
            "*").set_backward (.mul (h.next + 1) (h.next + 2) (h.next + 3))] := by
        apply mem_set_of
        apply mem_set_of
        simpa [r, h2, a, b, Value.sub, Value.neg, Value.mul, Value.add, Heap.declare,
          other_value, Heap.obj_alloc, Nat.add_assoc] using hc
      simp only [List.mem_cons, List.mem_singleton, List.not_mem_nil, or_false] at hc2
      rcases hc2 with rfl | rfl
      · rw [nodes_no_parents (Value.ctor da [] "") rfl, List.mem_singleton] at hxc
        rw [hxc]
        exact Or.inl rfl
      · rw [mem_nodes] at hxc
        rcases hxc with rfl | hxc
        · exact Or.inr (by simp)
        · refine Or.inl (nodes_of_leaf_set [Value.ctor db [] "", Value.ctor (-1) [] ""] ?_ x
            (by simpa using hxc))
          intro y hy
          simp only [List.mem_cons, List.mem_singleton, List.not_mem_nil, or_false] at hy
          rcases hy with rfl | rfl <;> exact ⟨rfl, rfl⟩
    have h0 : (((r.1.obj r.2)._backward.call m (r.1.set_grad r.2 1)).obj (h.next + 3)).grad = 0 ∧
        (((r.1.obj r.2)._backward.call m (r.1.set_grad r.2 1)).obj a).grad = 1 ∧
        (((r.1.obj r.2)._backward.call m (r.1.set_grad r.2 1)).obj b).grad = 0 := by
      simp [r, h2, a, b, Value.sub, Value.neg, Value.mul, Value.add, Heap.declare,
        other_value, Heap.obj_alloc, Heap.obj_set_grad, Heap.obj_add_grad, Closure.call,
        Nat.add_assoc]
    have hinv := foldl_call_invariant m
      (fun k : Heap => (k.obj (h.next + 3)).grad = 0 ∧ (k.obj a).grad = 1 ∧ (k.obj b).grad = 0)
      (fun c => c = .leaf ∨ c = .mul (h.next + 1) (h.next + 2) (h.next + 3))
      hS T.reverse hl _ h0
    rw [← hg] at hinv
    exact ⟨hinv.2.1, hinv.2.2⟩

/-! ## Division and the guard of `pow` -/

/-- The result of `operator/`: the local copy `other_value`, its power -1,
and the product of the receiver with that power. -/
theorem Value.div_eq (m : Libm) (h : Heap) (self : Addr) (other : Operand) :
    Value.div m h self other
      = .ok (Value.mul (((h.alloc (other_value h other)).bind (.int (-1))).alloc
          ((Value.ctor (m.pow (other_value h other).data (-1)) (set_of [other_value h other])
            ("**\x7b" ++ m.to_string (.int (-1)) ++ "\x7d")).set_backward
              (.pow h.next h.next_num (h.next + 1)))) self (.value (h.next + 1))) := by
  simp [Value.div, Value.pow, Exponent.is_scalar, Exponent.val]

/-- C11 (fails on the code): for two distinct leaves `a`, `b` with grad 0,
`a / b` returns a node with `data = a.data * pow(b.data, -1)`, and after
`backward()` from it `b.grad = 0`, not `-a.data / b.data^2`: `operator/`
raises its local copy `other_value` of `b` to the power -1, so the closure of
the power writes to that copy, and `operator*` then works on a copy of the
power; no closure holds a reference to `b`. -/
theorem backward_div_leaves (m : Libm) (h : Heap) (da db : ℚ) :
    let a := h.next
    let b := h.next + 1
    let h2 := ((h.declare da).1.declare db).1
    ∃ r : Heap × Addr, Value.div m h2 a (.value b) = .ok r ∧
      (r.1.obj r.2).data = da * m.pow db (-1) ∧
      (r.1.obj r.2)._backward = .mul a (b + 3) (b + 4) ∧
      (r.1.obj (b + 2))._backward = .pow (b + 1) h.next_num (b + 2) ∧
      ((Value.backward m r.1 r.2).obj b).grad = 0 := by
  intro a b h2
  refine ⟨_, Value.div_eq m h2 a (.value b), ?_, ?_, ?_, ?_⟩
  · simp [h2, a, b, Value.mul, Heap.declare, other_value, Heap.obj_alloc, Nat.add_assoc]
  · simp [h2, a, b, Value.mul, Heap.declare, other_value, Heap.obj_alloc, Nat.add_assoc]
  · simp [h2, a, b, Value.mul, Heap.declare, other_value, Heap.obj_alloc, Nat.add_assoc]
  · obtain ⟨T, hT, -, hg⟩ := backward_root_first m
      (Value.mul (((h2.alloc (other_value h2 (.value b))).bind (.int (-1))).alloc
          ((Value.ctor (m.pow (other_value h2 (.value b)).data (-1))
            (set_of [other_value h2 (.value b)])
            ("**\x7b" ++ m.to_string (.int (-1)) ++ "\x7d")).set_backward
              (.pow h2.next h2.next_num (h2.next + 1)))) a (.value (h2.next + 1))).1
      (Value.mul (((h2.alloc (other_value h2 (.value b))).bind (.int (-1))).alloc
          ((Value.ctor (m.pow (other_value h2 (.value b)).data (-1))
            (set_of [other_value h2 (.value b)])
            ("**\x7b" ++ m.to_string (.int (-1)) ++ "\x7d")).set_backward
              (.pow h2.next h2.next_num (h2.next + 1)))) a (.value (h2.next + 1))).2
    rw [hg]
    have hS : ∀ (c : Closure) (k : Heap),
        (c = .leaf ∨ c = .pow (h.next + 2) h.next_num (h.next + 3)) →
        (k.obj b).grad = 0 → ((c.call m k).obj b).grad = 0 := by
      rintro c k (rfl | rfl) h5
      · exact h5
      · simp only [b] at h5
        simp [Closure.call, Heap.obj_add_grad, h5, b]
    refine foldl_call_invariant m
      (fun k : Heap => (k.obj b).grad = 0)
      (fun c => c = .leaf ∨ c = .pow (h.next + 2) h.next_num (h.next + 3))
      hS T.reverse ?_ _ ?_
    · intro x hx
      have hx2 := hT x (List.mem_reverse.mp hx)
      rw [mem_nodes_of] at hx2
      obtain ⟨c, hc, hxc⟩ := hx2
      have hc2 : c ∈ [Value.ctor da [] "",
          (Value.ctor (m.pow db (-1)) (set_of [Value.ctor db [] ""])
            ("**\x7b" ++ m.to_string (.int (-1)) ++ "\x7d")).set_backward
              (.pow (h.next + 2) h.next_num (h.next + 3))] := by
        apply mem_set_of
        apply mem_set_of
        simpa [h2, a, b, Value.mul, Heap.declare, other_value, Heap.obj_alloc,
          Nat.add_assoc] using hc
      simp only [List.mem_cons, List.mem_singleton, List.not_mem_nil, or_false] at hc2
      rcases hc2 with rfl | rfl
      · rw [nodes_no_parents (Value.ctor da [] "") rfl, List.mem_singleton] at hxc
        rw [hxc]
        exact Or.inl rfl
      · rw [mem_nodes] at hxc
        rcases hxc with rfl | hxc
        · exact Or.inr (by simp)
        · refine Or.inl (nodes_of_leaf_set [Value.ctor db [] ""] ?_ x (by simpa using hxc))
          intro y hy
          rw [List.mem_singleton.mp hy]
          exact ⟨rfl, rfl⟩
    · simp [h2, a, b, Value.mul, Heap.declare, other_value, Heap.obj_alloc, Heap.obj_set_grad,
        Heap.obj_add_grad, Closure.call, Nat.add_assoc]

/-- C12: `operator/` never signals an error: for every receiver and every
operand (a `Value` or a number, a divisor with `data = 0` included) it returns
a node, because the exponent it hands to `pow` is the `int` -1, which passes
the guard of `pow`. -/
theorem div_never_throws (m : Libm) (h : Heap) (self : Addr) (other : Operand) :
    Exponent.is_scalar (.int (-1)) = true ∧
      (∀ (k : Heap) (s : Addr), ∃ p : Heap × Addr, Value.pow m k s (.int (-1)) = .ok p) ∧
      ∃ r : Heap × Addr, Value.div m h self other = .ok r :=
  ⟨rfl, fun k s => ⟨_, Value.pow_eq m k s (.int (-1)) rfl⟩, _, Value.div_eq m h self other⟩

/-- C13: `pow` called with an exponent whose type is neither `double` nor
`int` fails with `invalid_argument` (no heap, hence no node, comes back);
called with a `double` or an `int` exponent it returns a node. -/
theorem pow_guard (m : Libm) (h : Heap) (self : Addr) :
    (∀ k : ℚ, Value.pow m h self (.other k) = .error "The power should be a scalar value") ∧
      (∀ k : ℤ, ∃ r : Heap × Addr, Value.pow m h self (.int k) = .ok r ∧
        r.2 = h.next ∧ r.1.next = h.next + 1) ∧
      (∀ k : ℚ, ∃ r : Heap × Addr, Value.pow m h self (.double k) = .ok r ∧
        r.2 = h.next ∧ r.1.next = h.next + 1) ∧
      (∀ k : Exponent, (∃ e, Value.pow m h self k = .error e) ↔ k.is_scalar = false) := by
  refine ⟨fun k => ?_, fun k => ⟨_, Value.pow_eq m h self (.int k) rfl, rfl, rfl⟩,
    fun k => ⟨_, Value.pow_eq m h self (.double k) rfl, rfl, rfl⟩, fun k => ?_⟩
  · simp [Value.pow, Exponent.is_scalar]
  · cases k <;> simp [Value.pow, Exponent.is_scalar]

/-! ## The members that the closures write, cell by cell -/

@[simp] theorem Value.set_grad_set_grad (v : Value) (x y : ℚ) :
    (v.set_grad x).set_grad y = v.set_grad y := by
  cases v; rfl

/-- Adding to a grad changes the member `grad` of the cell only. -/
theorem Heap.obj_add_grad_frame (h : Heap) (p q : Addr) (x y : ℚ) :
    ((h.add_grad p x).obj q).set_grad y = (h.obj q).set_grad y := by
  rw [Heap.obj_add_grad]
  split_ifs with hqp
  · subst hqp; simp
  · rfl

/-- In every cell of the heap, the cells behind dangling references included,
a closure changes the member `grad` only. -/
theorem Closure.call_frame (m : Libm) (c : Closure) (g : Heap) (q : Addr) (y : ℚ) :
    ((c.call m g).obj q).set_grad y = (g.obj q).set_grad y := by
  cases c <;> simp [Closure.call, Heap.obj_add_grad_frame]

@[simp] theorem Closure.next_call (m : Libm) (c : Closure) (g : Heap) :
    (c.call m g).next = g.next := by
  cases c <;> simp [Closure.call]

/-- A closure leaves every object it does not write to as it is. -/
theorem Closure.call_obj_of_not_target (m : Libm) (c : Closure) (g : Heap) (q : Addr)
    (hq : q ∉ c.targets) : (c.call m g).obj q = g.obj q := by
  cases c <;> simp [Closure.targets] at hq <;>
    simp [Closure.call, Heap.obj_add_grad, hq]

/-- In every cell, running a list of closures changes the member `grad` only. -/
theorem foldl_call_frame (m : Libm) (l : List Value) (g : Heap) (q : Addr) (y : ℚ) :
    ((l.foldl (fun g node => node._backward.call m g) g).obj q).set_grad y
      = (g.obj q).set_grad y := by
  induction l generalizing g with
  | nil => rfl
  | cons x xs ih =>
    simp only [List.foldl_cons]
    rw [ih, Closure.call_frame]

@[simp] theorem Closure.num_call (m : Libm) (c : Closure) (g : Heap) :
    (c.call m g).num = g.num := by
  cases c <;> simp [Closure.call]

theorem foldl_call_num (m : Libm) (l : List Value) (g : Heap) :
    (l.foldl (fun g node => node._backward.call m g) g).num = g.num := by
  induction l generalizing g with
  | nil => rfl
  | cons x xs ih =>
    simp only [List.foldl_cons]
    rw [ih, Closure.num_call]

theorem foldl_call_next (m : Libm) (l : List Value) (g : Heap) :
    (l.foldl (fun g node => node._backward.call m g) g).next = g.next := by
  induction l generalizing g with
  | nil => rfl
  | cons x xs ih =>
    simp only [List.foldl_cons]
    rw [ih, Closure.next_call]

/-- In every cell of the heap, the cells behind dangling references included,
the pass `backward()` changes the member `grad` only. -/
theorem Value.backward_frame (m : Libm) (h : Heap) (r q : Addr) (y : ℚ) :
    ((Value.backward m h r).obj q).set_grad y = (h.obj q).set_grad y := by
  unfold Value.backward
  simp only []
  rw [foldl_call_frame, Heap.obj_set_grad]
  split_ifs with hqr
  · subst hqr; simp
  · rfl

@[simp] theorem Value.backward_next (m : Libm) (h : Heap) (r : Addr) :
    (Value.backward m h r).next = h.next := by
  unfold Value.backward
  simp only []
  rw [foldl_call_next]
  rfl

@[simp] theorem Value.backward_num (m : Libm) (h : Heap) (r : Addr) :
    (Value.backward m h r).num = h.num := by
  unfold Value.backward
  simp only []
  rw [foldl_call_num]
  rfl

/-- Every closure that `backward()` invokes belongs to a node reachable from
the root. -/
theorem mem_topo_nodes (h : Heap) (r : Addr) (x : Value) (hx : x ∈ Value.topo h r) :
    x ∈ (h.obj r).nodes := by
  rcases mem_topo_sort (h.obj r) ([], []) x hx with h1 | h1
  · simp at h1
  · exact h1

/-! ## Reset, order of `topo`, seed and frame -/

/-- The objects after `zero_grad`. -/
theorem zero_grad_obj (ps : List Addr) (g : Heap) (q : Addr) :
    (zero_grad g ps).obj q = if q ∈ ps then (g.obj q).set_grad 0 else g.obj q := by
  induction ps generalizing g with
  | nil => simp [zero_grad]
  | cons p ps ih =>
    have hstep : zero_grad g (p :: ps) = zero_grad (g.set_grad p 0) ps := rfl
    rw [hstep, ih, Heap.obj_set_grad]
    by_cases hqp : q = p
    · subst hqp
      by_cases hq : q ∈ ps <;> simp [hq]
    · by_cases hq : q ∈ ps <;> simp [hq, hqp]

theorem zero_grad_num (ps : List Addr) (g : Heap) : (zero_grad g ps).num = g.num := by
  induction ps generalizing g with
  | nil => rfl
  | cons p ps ih =>
    have hstep : zero_grad g (p :: ps) = zero_grad (g.set_grad p 0) ps := rfl
    rw [hstep, ih]
    rfl

/-- Objects that agree up to `grad` agree on all the other members. -/
theorem Value.members_of_set_grad_eq (v w : Value) (hvw : v.set_grad 0 = w.set_grad 0) :
    v.data = w.data ∧ v._prev = w._prev ∧ v._op = w._op ∧ v._backward = w._backward := by
  cases v
  cases w
  simp only [Value.set_grad, Value.mk.injEq] at hvw
  obtain ⟨h1, -, h3, h4, h5⟩ := hvw
  exact ⟨h1, h3, h4, h5⟩

/-- Objects that agree up to `grad` and on `grad` are the same. -/
theorem Value.eq_of_set_grad_eq (v w : Value) (hvw : v.set_grad 0 = w.set_grad 0)
    (hg : v.grad = w.grad) : v = w := by
  cases v
  cases w
  simp only [Value.set_grad, Value.mk.injEq] at hvw
  simp only [Value.grad_mk] at hg
  obtain ⟨h1, -, h3, h4, h5⟩ := hvw
  simp only [Value.mk.injEq]
  exact ⟨h1, hg, h3, h4, h5⟩

theorem mem_nodes_self (v : Value) : v ∈ v.nodes :=
  (mem_nodes v v).mpr (Or.inl rfl)

/-- Assigning to `grad` does not change the closures an object reaches. -/
theorem mem_nodes_set_grad (v x : Value) (g : ℚ) (hx : x ∈ (v.set_grad g).nodes) :
    ∃ y ∈ v.nodes, y._backward = x._backward := by
  rw [mem_nodes] at hx
  rcases hx with rfl | hx
  · exact ⟨v, mem_nodes_self v, by simp⟩
  · rw [Value.prev_set_grad] at hx
    exact ⟨x, (mem_nodes v x).mpr (Or.inr hx), rfl⟩

/-- The result `out` of a closure is one of the nodes it refers to. -/
theorem Closure.out_mem_nodes (c : Closure) (o : Addr) (ho : c.out = some o) : o ∈ c.nodes := by
  cases c <;> simp [Closure.out, Closure.nodes] at ho ⊢ <;> simp [ho]

/-! ### Two passes from heaps that agree on the nodes of the graph -/

theorem Heap.same_on_set_grad (ps : List Addr) (h g : Heap) (p : Addr) (x : ℚ)
    (hs : Heap.same_on ps h g) : Heap.same_on ps (h.set_grad p x) (g.set_grad p x) := by
  refine ⟨hs.1, fun q => ?_, fun q _ => ?_⟩
  · rw [Heap.obj_set_grad, Heap.obj_set_grad]
    split_ifs with hqp
    · subst hqp
      simpa using hs.2.1 q
    · exact hs.2.1 q
  · rw [Heap.obj_set_grad, Heap.obj_set_grad]
    split_ifs with hqp
    · simp
    · exact hs.2.2 q ‹q ∈ ps›

theorem Heap.same_on_add_grad (ps : List Addr) (h g : Heap) (p : Addr) (x y : ℚ)
    (hs : Heap.same_on ps h g) (hxy : x = y) :
    Heap.same_on ps (h.add_grad p x) (g.add_grad p y) := by
  refine ⟨hs.1, fun q => ?_, fun q hq => ?_⟩
  · rw [Heap.obj_add_grad_frame, Heap.obj_add_grad_frame]
    exact hs.2.1 q
  · rw [Heap.obj_add_grad, Heap.obj_add_grad]
    split_ifs with hqp
    · subst hqp
      simp [hs.2.2 q hq, hxy]
    · exact hs.2.2 q hq

/-- A closure without a dangling reference, whose result `out` is among the
objects on which two heaps agree, acts on both heaps alike. -/
theorem Closure.call_same_on (m : Libm) (ps : List Addr) (c : Closure) (h g : Heap)
    (hs : Heap.same_on ps h g) (hout : ∀ o, c.out = some o → o ∈ ps)
    (hd : c.dangling = []) :
    Heap.same_on ps (c.call m h) (c.call m g) := by
  have hdata : ∀ q, (h.obj q).data = (g.obj q).data :=
    fun q => (Value.members_of_set_grad_eq _ _ (hs.2.1 q)).1
  cases c with
  | leaf => exact hs
  | add self ov out => simp [Closure.dangling] at hd
  | mul self ov out => simp [Closure.dangling] at hd
  | pow self e out =>
    have ho : out ∈ ps := hout out rfl
    exact Heap.same_on_add_grad ps h g self _ _ hs
      (by rw [hs.1, hdata self, hs.2.2 out ho])
  | exp self out =>
    have ho : out ∈ ps := hout out rfl
    exact Heap.same_on_add_grad ps h g self _ _ hs (by rw [hdata out, hs.2.2 out ho])
  | relu self out =>
    have ho : out ∈ ps := hout out rfl
    exact Heap.same_on_add_grad ps h g self _ _ hs (by rw [hdata out, hs.2.2 out ho])
  | tanh self out =>
    have ho : out ∈ ps := hout out rfl
    exact Heap.same_on_add_grad ps h g self _ _ hs (by rw [hdata out, hs.2.2 out ho])

theorem foldl_call_same_on (m : Libm) (ps : List Addr) (l : List Value)
    (hl : ∀ x ∈ l, (∀ o, x._backward.out = some o → o ∈ ps) ∧ x._backward.dangling = [])
    (h g : Heap) (hs : Heap.same_on ps h g) :
    Heap.same_on ps (l.foldl (fun g node => node._backward.call m g) h)
      (l.foldl (fun g node => node._backward.call m g) g) := by
  induction l generalizing h g with
  | nil => exact hs
  | cons x xs ih =>
    simp only [List.foldl_cons]
    exact ih (fun y hy => hl y (List.mem_cons_of_mem x hy)) _ _
      (Closure.call_same_on m ps _ h g hs (hl x (List.mem_cons_self x xs)).1
        (hl x (List.mem_cons_self x xs)).2)

/-- Two passes from the same root, on heaps that agree on the nodes of a
graph without dangling references, end in heaps that agree on them. -/
theorem Value.backward_same_on (m : Libm) (ps : List Addr) (h g : Heap) (r : Addr)
    (hs : Heap.same_on ps h g) (hr : r ∈ ps)
    (hout : ∀ x ∈ (h.obj r).nodes,
      (∀ o, x._backward.out = some o → o ∈ ps) ∧ x._backward.dangling = []) :
    Heap.same_on ps (Value.backward m h r) (Value.backward m g r) := by
  have heq : g.obj r = h.obj r :=
    (Value.eq_of_set_grad_eq _ _ (hs.2.1 r) (hs.2.2 r hr)).symm
  unfold Value.backward Value.topo
  simp only []
  rw [heq]
  exact foldl_call_same_on m ps _
    (fun x hx => hout x (mem_topo_nodes h r x (List.mem_reverse.mp hx))) _ _
    (Heap.same_on_set_grad ps h g r 1 hs)

/-- On a graph none of whose closures holds a dangling reference (a graph
built with `pow`, `exp`, `relu`, `tanh`): when the grad of every object of a
list that holds the nodes of the graph of `R` is 0, `backward()` from `R`, a
reset of the list and `backward()` from `R` again leave every object of the
list as the first pass left it. -/
theorem backward_twice_with_reset (m : Libm) (h : Heap) (r : Addr) (ps : List Addr)
    (hps : ∀ q ∈ Value.graph h r, q ∈ ps) (hzero : ∀ q ∈ ps, (h.obj q).grad = 0)
    (hd : ∀ x ∈ (h.obj r).nodes, x._backward.dangling = []) :
    ∀ q ∈ ps, (Value.backward m (zero_grad (Value.backward m h r) ps) r).obj q
      = (Value.backward m h r).obj q := by
  have hr : r ∈ ps := hps r (List.mem_cons_self _ _)
  have hout : ∀ x ∈ (h.obj r).nodes,
      (∀ o, x._backward.out = some o → o ∈ ps) ∧ x._backward.dangling = [] := by
    intro x hx
    refine ⟨fun o ho => ?_, hd x hx⟩
    apply hps
    unfold Value.graph
    apply List.mem_cons_of_mem
    rw [List.mem_flatMap]
    exact ⟨x, hx, Closure.out_mem_nodes _ o ho⟩
  have hs : Heap.same_on ps h (zero_grad (Value.backward m h r) ps) := by
    refine ⟨?_, fun q => ?_, fun q hq => ?_⟩
    · rw [zero_grad_num, Value.backward_num]
    · rw [zero_grad_obj]
      split_ifs with hq
      · rw [Value.set_grad_set_grad, Value.backward_frame]
      · rw [Value.backward_frame]
    · rw [zero_grad_obj, if_pos hq, Value.grad_set_grad]
      exact hzero q hq
  have h2 := Value.backward_same_on m ps h _ r hs hr hout
  intro q hq
  exact (Value.eq_of_set_grad_eq _ _ (h2.2.1 q) (h2.2.2 q hq)).symm

/-- The chain `y = a.exp()`, `R = y.tanh()` over a leaf `a = 1`, all grads 0:
after `R.backward()`, a reset of `a`, `y`, `R` and `R.backward()` again, the
three objects are as the first pass left them. -/
theorem backward_twice_on_chain (m : Libm) (h : Heap) :
    let a := h.next
    let y := Value.exp m (h.declare 1).1 a
    let r := Value.tanh m y.1 y.2
    ∀ q ∈ [a, y.2, r.2],
      (Value.backward m (zero_grad (Value.backward m r.1 r.2) [a, y.2, r.2]) r.2).obj q
        = (Value.backward m r.1 r.2).obj q := by
  intro a y r
  have hnodes : ∀ x ∈ (r.1.obj r.2).nodes,
      x._backward = .tanh y.2 r.2 ∨ x._backward = .exp a y.2 ∨ x._backward = .leaf := by
    intro x hx
    simp [r, y, a, Value.tanh, Value.exp, Heap.declare, Heap.obj_alloc, Value.ctor, set_of,
      set_insert, Value.nodes, nodes_of, Nat.add_assoc] at hx
    rcases hx with rfl | rfl | rfl <;> simp [r, y, a, Value.tanh, Value.exp, Heap.declare]
  apply backward_twice_with_reset
  · intro q hq
    unfold Value.graph at hq
    rcases List.mem_cons.mp hq with rfl | hq
    · simp
    · rw [List.mem_flatMap] at hq
      obtain ⟨x, hx, hqx⟩ := hq
      rcases hnodes x hx with e | e | e <;> rw [e] at hqx <;>
        simp [Closure.nodes] at hqx
      · rcases hqx with rfl | rfl <;> simp
      · rcases hqx with rfl | rfl <;> simp
  · intro q hq
    simp only [List.mem_cons, List.mem_singleton, List.not_mem_nil, or_false] at hq
    rcases hq with rfl | rfl | rfl <;>
      simp [r, y, a, Value.tanh, Value.exp, Heap.declare, Heap.obj_alloc, Nat.add_assoc]
  · intro x hx
    rcases hnodes x hx with e | e | e <;> rw [e] <;> rfl

/-- C16 (fails on the code): for `a = 5` and `R = (a * 1.0).relu()` the
sequence built by `topo_sort` is `R` alone.  The node `a * 1.0` is a
recorded parent of `R` and carries the same `data` (5), so `visited.find`
takes it for `R` and it is never appended: the parent of `R` does not occur
before `R`, its closure is never invoked and `a.grad` stays 0. -/
theorem topo_misses_parent (m : Libm) (h : Heap) :
    let a := h.next
    let t := Value.mul (h.declare 5).1 a (.literal 1)
    let r := Value.relu t.1 t.2
    let g := Value.backward m r.1 r.2
    (r.1.obj r.2)._prev = [t.1.obj t.2] ∧
      Value.topo r.1 r.2 = [r.1.obj r.2] ∧
      (t.1.obj t.2)._backward = .mul a (a + 1) (a + 2) ∧
      (g.obj (a + 2)).grad = 1 ∧ (g.obj a).grad = 0 := by
  norm_num [Nat.add_assoc, Value.backward, Value.topo, Value.mul, Value.relu, Heap.declare,
    other_value, Value.ctor, set_of, set_insert, set_find, topo_sort, topo_sort_children,
    Value.lt, Closure.call, Heap.obj_alloc, Heap.obj_set_grad, Heap.obj_add_grad]

/-- C17 (fails on the code): for `a = 2`, `y = a.relu()` and the copy
`Value z = y`, the closure that `z` holds is the one `relu` stored in `y`:
its reference `out` denotes `y`, not `z`.  After `z.backward()` the grad
of `z` is 1, but the rule of `z` reads the upstream gradient from `y`, whose
grad is 0, so `a.grad` stays 0: the seed is not what the rule of the root
propagates.  A pass from `y` itself gives `a.grad = 1`. -/
theorem backward_from_copy (m : Libm) (h : Heap) :
    let a := h.next
    let y := Value.relu (h.declare 2).1 a
    let z := y.1.copy y.2
    let g := Value.backward m z.1 z.2
    z.2 ≠ y.2 ∧ (z.1.obj z.2)._backward = .relu a y.2 ∧
      (z.1.obj z.2)._backward.out = some y.2 ∧
      (g.obj z.2).grad = 1 ∧ (g.obj y.2).grad = 0 ∧ (g.obj a).grad = 0 ∧
      ((Value.backward m z.1 y.2).obj a).grad = 1 := by
  norm_num [Nat.add_assoc, Value.backward, Value.topo, Value.relu, Heap.copy, Heap.declare,
    Value.ctor, set_of, set_insert, set_find, topo_sort, topo_sort_children, Closure.out,
    Value.lt, Closure.call, Heap.obj_alloc, Heap.obj_set_grad, Heap.obj_add_grad]

/-- A root that holds a closure writing to the root itself: after
`Value a(2); Value y = a.relu(); y.grad = 5; a = y; a.backward();` the closure
of `a` is the one `relu` stored in `y`, whose receiver is `a`, and the grad of
`a` is 6, not 1. -/
theorem backward_from_assigned_root (m : Libm) (h : Heap) :
    let a := h.next
    let y := Value.relu (h.declare 2).1 a
    let h1 := ((y.1.set_grad y.2 5).assign a y.2)
    let g := Value.backward m h1 a
    (h1.obj a)._backward = .relu a y.2 ∧ (g.obj a).grad = 6 := by
  norm_num [Nat.add_assoc, Value.backward, Value.topo, Value.relu, Heap.assign, Heap.declare,
    Value.ctor, set_of, set_insert, set_find, topo_sort, topo_sort_children, Function.update,
    Value.lt, Closure.call, Heap.obj_alloc, Heap.obj_set_grad, Heap.obj_add_grad, Heap.set_grad,
    Heap.add_grad, Heap.alloc]

/-- An operator leaves every object that exists (its operands among them) as
it is, `data` and `grad` included, and the node it returns has grad 0. -/
theorem operators_frame (m : Libm) (h : Heap) (q self : Addr) (other : Operand) (k : Exponent) :
    (q < h.next →
        (Value.add h self other).1.obj q = h.obj q ∧
          (Value.mul h self other).1.obj q = h.obj q ∧
          (∀ p, Value.pow m h self k = .ok p → p.1.obj q = h.obj q) ∧
          (Value.neg h self).1.obj q = h.obj q ∧
          (Value.sub h self other).1.obj q = h.obj q ∧
          (∀ p, Value.div m h self other = .ok p → p.1.obj q = h.obj q) ∧
          (Value.exp m h self).1.obj q = h.obj q ∧
          (Value.relu h self).1.obj q = h.obj q ∧
          (Value.tanh m h self).1.obj q = h.obj q) ∧
      (((Value.add h self other).1.obj (Value.add h self other).2).grad = 0 ∧
        ((Value.mul h self other).1.obj (Value.mul h self other).2).grad = 0 ∧
        (∀ p, Value.pow m h self k = .ok p → (p.1.obj p.2).grad = 0) ∧
        ((Value.neg h self).1.obj (Value.neg h self).2).grad = 0 ∧
        ((Value.sub h self other).1.obj (Value.sub h self other).2).grad = 0 ∧
        (∀ p, Value.div m h self other = .ok p → (p.1.obj p.2).grad = 0) ∧
        ((Value.exp m h self).1.obj (Value.exp m h self).2).grad = 0 ∧
        ((Value.relu h self).1.obj (Value.relu h self).2).grad = 0 ∧
        ((Value.tanh m h self).1.obj (Value.tanh m h self).2).grad = 0) := by
  refine ⟨?_, ?_⟩
  · intro hq
    have e0 : q ≠ h.next := Nat.ne_of_lt hq
    have e1 : q ≠ h.next + 1 := Nat.ne_of_lt (Nat.lt_succ_of_lt hq)
    have e2 : q ≠ h.next + 2 := Nat.ne_of_lt (Nat.lt_succ_of_lt (Nat.lt_succ_of_lt hq))
    have e3 : q ≠ h.next + 3 :=
      Nat.ne_of_lt (Nat.lt_succ_of_lt (Nat.lt_succ_of_lt (Nat.lt_succ_of_lt hq)))
    refine ⟨?_, ?_, ?_, ?_, ?_, ?_, ?_, ?_, ?_⟩
    · simp [Value.add, Heap.obj_alloc, e0, e1]
    · simp [Value.mul, Heap.obj_alloc, e0, e1]
    · intro p hp
      have hk : k.is_scalar = true := by
        cases k <;> simp [Value.pow, Exponent.is_scalar] at hp ⊢
      rw [Value.pow_eq m h self k hk] at hp
      cases hp
      simp [Heap.obj_alloc, e0]
    · simp [Value.neg, Value.mul, Heap.obj_alloc, e0, e1]
    · cases other <;>
        simp [Value.sub, Value.neg, Value.add, Value.mul, Heap.obj_alloc, e0, e1, e2, e3,
          Nat.add_assoc]
    · intro p hp
      rw [Value.div_eq] at hp
      cases hp
      simp [Value.mul, Heap.obj_alloc, e0, e1, e2, e3, Nat.add_assoc]
    · simp [Value.exp, Heap.obj_alloc, e0]
    · simp [Value.relu, Heap.obj_alloc, e0]
    · simp [Value.tanh, Heap.obj_alloc, e0]
  · refine ⟨?_, ?_, ?_, ?_, ?_, ?_, ?_, ?_, ?_⟩
    · simp [Value.add, Heap.obj_alloc]
    · simp [Value.mul, Heap.obj_alloc]
    · intro p hp
      have hk : k.is_scalar = true := by
        cases k <;> simp [Value.pow, Exponent.is_scalar] at hp ⊢
      rw [Value.pow_eq m h self k hk] at hp
      cases hp
      simp
    · simp [Value.neg, Value.mul, Heap.obj_alloc]
    · cases other <;> simp [Value.sub, Value.neg, Value.add, Value.mul, Heap.obj_alloc]
    · intro p hp
      rw [Value.div_eq] at hp
      cases hp
      simp [Value.mul, Heap.obj_alloc]
    · simp [Value.exp, Heap.obj_alloc]
    · simp [Value.relu, Heap.obj_alloc]
    · simp [Value.tanh, Heap.obj_alloc]

/-- C18 (fails on the code): on `r = a + b` over two leaves, the closure of
`r` writes to three places: `a`, and, through the reference `other_value`
that dangles, the storage the local of `operator+` had.  That storage is not
a node of the graph of `r`, and `r.backward()` adds 1 to the grad found in
it.  Building `r` left `a` and `b` as they were and gave `r` the grad 0. -/
theorem backward_writes_dead_local (m : Libm) (h : Heap) (da db : ℚ) :
    let a := h.next
    let b := h.next + 1
    let h2 := ((h.declare da).1.declare db).1
    let r := Value.add h2 a (.value b)
    let g := Value.backward m r.1 r.2
    (r.1.obj r.2)._backward = .add a (b + 1) (b + 2) ∧
      (r.1.obj r.2)._backward.dangling = [b + 1] ∧
      b + 1 ∈ (r.1.obj r.2)._backward.targets ∧
      b + 1 ∉ Value.graph r.1 r.2 ∧
      (g.obj (b + 1)).grad = (r.1.obj (b + 1)).grad + 1 ∧
      g.obj (b + 1) ≠ r.1.obj (b + 1) ∧
      r.1.obj a = h2.obj a ∧ r.1.obj b = h2.obj b ∧ (r.1.obj r.2).grad = 0 := by
  intro a b h2 r g
  have hcl : (r.1.obj r.2)._backward = .add a (b + 1) (b + 2) := by
    simp [r, h2, a, b, Value.add, Heap.declare, other_value, Heap.obj_alloc, Nat.add_assoc]
  have hp : (r.1.obj r.2)._prev
      = set_of (set_of [Value.ctor da [] "", Value.ctor db [] ""]) := by
    simp [r, h2, a, b, Value.add, Heap.declare, other_value, Heap.obj_alloc, Nat.add_assoc]
  have hl : ∀ x ∈ [Value.ctor da [] "", Value.ctor db [] ""],
      x._prev = [] ∧ x._backward = .leaf := by
    intro x hx
    simp only [List.mem_cons, List.mem_singleton, List.not_mem_nil, or_false] at hx
    rcases hx with rfl | rfl <;> exact ⟨rfl, rfl⟩
  have hg : g = (r.1.obj r.2)._backward.call m (r.1.set_grad r.2 1) := by
    apply backward_of_leaf_parents
    rw [hp]
    exact leaf_parents_of_set _ hl
  have hcell : (g.obj (b + 1)).grad = (r.1.obj (b + 1)).grad + 1 := by
    rw [hg]
    simp [r, h2, a, b, Value.add, Heap.declare, other_value, Heap.obj_alloc, Heap.obj_set_grad,
      Heap.obj_add_grad, Closure.call, Nat.add_assoc]
  refine ⟨hcl, ?_, ?_, ?_, hcell, ?_, ?_, ?_, ?_⟩
  · rw [hcl]; rfl
  · rw [hcl]; simp [Closure.targets]
  · intro hmem
    unfold Value.graph at hmem
    rcases List.mem_cons.mp hmem with hm | hm
    · simp [r, h2, b, Value.add, Heap.declare, Nat.add_assoc] at hm
    · rw [List.mem_flatMap] at hm
      obtain ⟨x, hx, hxq⟩ := hm
      rw [mem_nodes] at hx
      rcases hx with rfl | hx
      · rw [hcl] at hxq
        simp [Closure.nodes, a, b, Nat.add_assoc] at hxq
      · rw [hp] at hx
        rw [nodes_of_leaf_set _ hl x hx] at hxq
        simp [Closure.nodes] at hxq
  · intro heq
    rw [heq] at hcell
    linarith
  · simp [r, h2, a, b, Value.add, Heap.declare, other_value, Heap.obj_alloc, Nat.add_assoc]
  · simp [r, h2, a, b, Value.add, Heap.declare, other_value, Heap.obj_alloc, Nat.add_assoc]
  · simp [r, h2, a, b, Value.add, Heap.declare, other_value, Heap.obj_alloc, Nat.add_assoc]

/-! ## The network layer -/

/-- The loop `for (i = 0; i < n; i++) sum += f(i)` adds up `f` over the
indices below `n`. -/
theorem foldl_range_add (f : ℕ → ℚ) (n : ℕ) :
    (List.range n).foldl (fun s i => s + f i) 0 = ∑ i ∈ Finset.range n, f i := by
  induction n with
  | zero => simp
  | succ n ih => rw [List.range_succ, List.foldl_append, ih, Finset.sum_range_succ]; rfl

/-- The result of `Neuron::forward` when the sizes match. -/
theorem Neuron.forward_eq (h : Heap) (n : Neuron) (x : List Value)
    (hlen : x.length = n.w.length) :
    Neuron.forward h n x
      = .ok (if n.nonlin then Value.relu (h.declare (Neuron.preact h n x)).1 h.next
          else ((h.declare (Neuron.preact h n x)).1.alloc (Value.ctor (Neuron.preact h n x) [] ""),
            h.next + 1)) := by
  by_cases hn : n.nonlin = true <;> simp [Neuron.forward, hlen, hn, Heap.declare]

/-- C14: `Neuron::forward(x)` raises `invalid_argument` exactly when the
length of `x` differs from the number of weights; when the lengths match it
returns a `Value` whose `data` is the sum over `i` of `x[i].data * w[i].data`
plus `b.data`, passed through `max(0, .)` when `nonlin` is set and unchanged
otherwise. -/
theorem neuron_forward_contract (h : Heap) (n : Neuron) (x : List Value) :
    ((∃ e, Neuron.forward h n x = .error e) ↔ x.length ≠ n.w.length) ∧
      (x.length ≠ n.w.length → Neuron.forward h n x = .error "Input size mismatch") ∧
      (x.length = n.w.length →
        ∃ r : Heap × Addr, Neuron.forward h n x = .ok r ∧
          (r.1.obj r.2).data =
            if n.nonlin then
              max 0 ((∑ i ∈ Finset.range x.length,
                (x.getD i (Value.ctor 0 [] "")).data * (h.obj (n.w.getD i 0)).data)
                  + (h.obj n.b).data)
            else
              (∑ i ∈ Finset.range x.length,
                (x.getD i (Value.ctor 0 [] "")).data * (h.obj (n.w.getD i 0)).data)
                  + (h.obj n.b).data) := by
  refine ⟨?_, ?_, ?_⟩
  · by_cases hlen : x.length = n.w.length
    · simp [Neuron.forward_eq h n x hlen, hlen]
    · simp [Neuron.forward, hlen]
  · intro hlen
    simp [Neuron.forward, hlen]
  · intro hlen
    refine ⟨_, Neuron.forward_eq h n x hlen, ?_⟩
    by_cases hn : n.nonlin = true
    · simp [Value.relu, Heap.declare, Heap.obj_alloc, hn, Neuron.preact, foldl_range_add]
    · simp [Heap.declare, Heap.obj_alloc, hn, Neuron.preact, foldl_range_add]

/-- C14 on a neuron with the weights 2 and 3 and the bias 1: the input
`(4, 5)` gives `data = 4*2 + 5*3 + 1 = 24`, the input `(4)` is rejected. -/
theorem neuron_forward_contract_witness :
    (∃ r : Heap × Addr,
        Neuron.forward (((Heap.empty.declare 2).1.declare 3).1.declare 1).1 ⟨[0, 1], 2, true⟩
          [Value.ctor 4 [] "", Value.ctor 5 [] ""] = .ok r ∧ (r.1.obj r.2).data = 24) ∧
      Neuron.forward (((Heap.empty.declare 2).1.declare 3).1.declare 1).1 ⟨[0, 1], 2, true⟩
        [Value.ctor 4 [] ""] = .error "Input size mismatch" := by
  have hw := neuron_forward_contract (((Heap.empty.declare 2).1.declare 3).1.declare 1).1
    ⟨[0, 1], 2, true⟩ [Value.ctor 4 [] "", Value.ctor 5 [] ""]
  have hw2 := neuron_forward_contract (((Heap.empty.declare 2).1.declare 3).1.declare 1).1
    ⟨[0, 1], 2, true⟩ [Value.ctor 4 [] ""]
  obtain ⟨r, hr, hd⟩ := hw.2.2 rfl
  refine ⟨⟨r, hr, ?_⟩, hw2.2.1 (by decide)⟩
  rw [hd]
  norm_num [Finset.sum_range_succ, Heap.declare, Heap.empty, Heap.obj_alloc]

/-- A pass from a root that is cut off from the objects older than `base`
leaves these objects as they are. -/
theorem backward_local (m : Libm) (h : Heap) (e base q : Addr)
    (hv : (h.obj e).local_from base) (he : base ≤ e) (hq : q < base) :
    (Value.backward m h e).obj q = h.obj q := by
  rw [backward_of_leaf_parents m h e hv.1, Closure.call_obj_of_not_target]
  · simp [Heap.obj_set_grad, Nat.ne_of_lt (Nat.lt_of_lt_of_le hq he)]
  · intro ht
    exact absurd hq (Nat.not_lt.mpr (hv.2 q ht))

theorem Value.local_from_mono (base base2 : Addr) (v : Value) (hb : base ≤ base2)
    (hv : v.local_from base2) : v.local_from base :=
  ⟨hv.1, fun t ht => Nat.le_trans hb (hv.2 t ht)⟩

/-- What `Neuron::forward` returns: a new object, cut off from everything
that existed before the call, its only recorded parent (if any) being the
copy of the leaf `act`; the objects that existed are untouched. -/
theorem Neuron.forward_local (h : Heap) (n : Neuron) (x : List Value) (r : Heap × Addr)
    (hr : Neuron.forward h n x = .ok r) :
    r.2 = h.next + 1 ∧ r.1.next = h.next + 2 ∧
      (r.1.obj r.2)._prev
        = (if n.nonlin then [Value.ctor (Neuron.preact h n x) [] ""] else []) ∧
      (r.1.obj r.2)._backward = (if n.nonlin then .relu h.next (h.next + 1) else .leaf) ∧
      (r.1.obj r.2).local_from h.next ∧
      ∀ q, q < h.next → r.1.obj q = h.obj q := by
  have hlen : x.length = n.w.length := by
    by_contra hne
    simp [Neuron.forward, hne] at hr
  rw [Neuron.forward_eq h n x hlen] at hr
  cases hr
  by_cases hn : n.nonlin = true
  · refine ⟨by simp [hn, Value.relu, Heap.declare], by simp [hn, Value.relu, Heap.declare],
      ?_, ?_, ⟨?_, ?_⟩, ?_⟩
    · simp [hn, Value.relu, Heap.declare, Heap.obj_alloc, set_of_singleton]
    · simp [hn, Value.relu, Heap.declare, Heap.obj_alloc]
    · intro c hc
      simp [hn, Value.relu, Heap.declare, Heap.obj_alloc, set_of_singleton] at hc
      subst hc
      exact ⟨rfl, rfl⟩
    · intro t ht
      simp [hn, Value.relu, Heap.declare, Heap.obj_alloc, Closure.targets] at ht
      exact Nat.le_of_eq ht.symm
    · intro q hq
      simp [hn, Value.relu, Heap.declare, Heap.obj_alloc, Nat.ne_of_lt hq,
        Nat.ne_of_lt (Nat.lt_succ_of_lt hq)]
  · refine ⟨by simp [hn], by simp [hn, Heap.declare], ?_, ?_, ⟨?_, ?_⟩, ?_⟩
    · simp [hn, Heap.declare, Heap.obj_alloc, set_of]
    · simp [hn, Heap.declare, Heap.obj_alloc]
    · intro c hc
      simp [hn, Heap.declare, Heap.obj_alloc, set_of] at hc
    · intro t ht
      simp [hn, Heap.declare, Heap.obj_alloc, Closure.targets] at ht
    · intro q hq
      simp [hn, Heap.declare, Heap.obj_alloc, Nat.ne_of_lt hq,
        Nat.ne_of_lt (Nat.lt_succ_of_lt hq)]

/-- The loop of `Layer::forward` keeps what existed and adds only elements cut
off from the objects older than `base`. -/
theorem Layer.loop_outputs_local (x : List Value) (base : Addr) :
    ∀ (ns : List Neuron) (acc r : Heap × List Addr),
      Layer.forward_loop x ns acc = .ok r → base ≤ acc.1.next →
      (∀ e ∈ acc.2, base ≤ e ∧ e < acc.1.next ∧ (acc.1.obj e).local_from base) →
      acc.1.next ≤ r.1.next ∧ (∀ q, q < acc.1.next → r.1.obj q = acc.1.obj q) ∧
        ∀ e ∈ r.2, base ≤ e ∧ e < r.1.next ∧ (r.1.obj e).local_from base := by
  intro ns
  induction ns with
  | nil =>
    intro acc r hr _ hacc
    simp only [Layer.forward_loop, Except.ok.injEq] at hr
    subst hr
    exact ⟨Nat.le_refl _, fun _ _ => rfl, hacc⟩
  | cons n rest ih =>
    intro acc r hr hbase hacc
    rw [Layer.forward_loop] at hr
    cases hn : Neuron.forward acc.1 n x with
    | error e => rw [hn] at hr; cases hr
    | ok r1 =>
      rw [hn] at hr
      simp only [] at hr
      obtain ⟨h2, hnext, -, -, hloc, hframe⟩ := Neuron.forward_local acc.1 n x r1 hn
      have hstep := ih (r1.1.alloc (r1.1.obj r1.2), acc.2 ++ [r1.1.next]) r hr
        (by simp only [Heap.next_alloc, hnext]; (unfold Addr at *; omega)) (by
          intro e he
          rcases List.mem_append.mp he with he | he
          · obtain ⟨e1, e2, e3⟩ := hacc e he
            refine ⟨e1, by simp only [Heap.next_alloc, hnext]; (unfold Addr at *; omega), ?_⟩
            have hne : e ≠ r1.1.next := by rw [hnext]; (unfold Addr at *; omega)
            simp only [Heap.obj_alloc, hne, if_false]
            rw [hframe e e2]
            exact e3
          · rw [List.mem_singleton.mp he]
            refine ⟨by rw [hnext]; (unfold Addr at *; omega), by simp, ?_⟩
            simp only [Heap.obj_alloc_next]
            exact Value.local_from_mono base acc.1.next _ hbase hloc)
      obtain ⟨s1, s2, s3⟩ := hstep
      refine ⟨by simp only [Heap.next_alloc, hnext] at s1; (unfold Addr at *; omega), ?_, s3⟩
      intro q hq
      rw [s2 q (by simp only [Heap.next_alloc, hnext]; (unfold Addr at *; omega))]
      have hne : q ≠ r1.1.next := by rw [hnext]; (unfold Addr at *; omega)
      simp only [Heap.obj_alloc, hne, if_false]
      exact hframe q hq

/-- The loop of `MLP::forward`, over at least one layer: what existed is kept,
and the outputs are cut off from the objects older than `base`. -/
theorem MLP.loop_outputs_cut_off (base : Addr) :
    ∀ (ls : List Layer) (acc r : Heap × List Addr),
      ls ≠ [] → MLP.forward_loop ls acc = .ok r → base ≤ acc.1.next →
      acc.1.next ≤ r.1.next ∧ (∀ q, q < acc.1.next → r.1.obj q = acc.1.obj q) ∧
        ∀ e ∈ r.2, base ≤ e ∧ e < r.1.next ∧ (r.1.obj e).local_from base := by
  intro ls
  induction ls with
  | nil => intro acc r hne; exact absurd rfl hne
  | cons l rest ih =>
    intro acc r _ hr hbase
    rw [MLP.forward_loop] at hr
    cases hl : Layer.forward acc.1 l (acc.2.map acc.1.obj) with
    | error e => rw [hl] at hr; cases hr
    | ok r1 =>
      rw [hl] at hr
      simp only [] at hr
      obtain ⟨s1, s2, s3⟩ := Layer.loop_outputs_local _ base l.neurons (acc.1, []) r1 hl hbase
        (by intro e he; simp at he)
      by_cases hrest : rest = []
      · subst hrest
        simp only [MLP.forward_loop, Except.ok.injEq] at hr
        subst hr
        exact ⟨s1, s2, s3⟩
      · obtain ⟨t1, t2, t3⟩ := ih r1 r hrest hr (Nat.le_trans hbase s1)
        refine ⟨Nat.le_trans s1 t1, ?_, t3⟩
        intro q hq
        rw [t2 q (Nat.lt_of_lt_of_le hq s1)]
        exact s2 q hq

/-- The statement `vector<Value> out = x;` keeps what existed. -/
theorem copy_vector_frame (x : List Value) :
    ∀ (acc : Heap × List Addr),
      acc.1.next ≤ (x.foldl (fun (acc : Heap × List Addr) v =>
          (acc.1.alloc v, acc.2 ++ [acc.1.next])) acc).1.next ∧
        ∀ q, q < acc.1.next →
          (x.foldl (fun (acc : Heap × List Addr) v =>
            (acc.1.alloc v, acc.2 ++ [acc.1.next])) acc).1.obj q = acc.1.obj q := by
  induction x with
  | nil => intro acc; exact ⟨Nat.le_refl _, fun _ _ => rfl⟩
  | cons v vs ih =>
    intro acc
    simp only [List.foldl_cons]
    obtain ⟨i1, i2⟩ := ih (acc.1.alloc v, acc.2 ++ [acc.1.next])
    refine ⟨Nat.le_trans (Nat.le_succ _) i1, ?_⟩
    intro q hq
    rw [i2 q (Nat.lt_succ_of_lt hq)]
    simp [Heap.obj_alloc, Nat.ne_of_lt hq]

/-- C19: the `Value` that `Neuron::forward` returns records no parent (linear
neuron) or one parent, the copy of the leaf `act` built from the number
`sum + b.data` (with `relu`); its closure writes only to objects created by
the call.  So `backward()` on the output of a neuron, of a layer or of an MLP
leaves every object that existed before the call as it was, in particular
every parameter and its grad. -/
theorem forward_outputs_detached (m : Libm) (h : Heap) (x : List Value) :
    (∀ (n : Neuron) (r : Heap × Addr), Neuron.forward h n x = .ok r →
        (r.1.obj r.2)._prev
          = (if n.nonlin then [Value.ctor (Neuron.preact h n x) [] ""] else []) ∧
        (∀ t ∈ (r.1.obj r.2)._backward.targets, h.next ≤ t) ∧
        (∀ q, q < h.next → (Value.backward m r.1 r.2).obj q = h.obj q) ∧
        ∀ p ∈ n.parameters, p < h.next →
          ((Value.backward m r.1 r.2).obj p).grad = (h.obj p).grad) ∧
      (∀ (l : Layer) (r : Heap × List Addr), Layer.forward h l x = .ok r →
        ∀ e ∈ r.2, (∀ q, q < h.next → (Value.backward m r.1 e).obj q = h.obj q) ∧
          ∀ p ∈ l.parameters, p < h.next →
            ((Value.backward m r.1 e).obj p).grad = (h.obj p).grad) ∧
      (∀ (mlp : MLP) (r : Heap × List Addr), MLP.forward h mlp x = .ok r →
        ∀ e ∈ r.2, ∀ p ∈ mlp.parameters, p < h.next →
          (Value.backward m r.1 e).obj p = h.obj p ∧
            ((Value.backward m r.1 e).obj p).grad = (h.obj p).grad) := by
  refine ⟨?_, ?_, ?_⟩
  · intro n r hr
    obtain ⟨h2, -, hprev, -, hloc, hframe⟩ := Neuron.forward_local h n x r hr
    have hfr : ∀ q, q < h.next → (Value.backward m r.1 r.2).obj q = h.obj q := by
      intro q hq
      rw [backward_local m r.1 r.2 h.next q hloc (by rw [h2]; (unfold Addr at *; omega)) hq]
      exact hframe q hq
    exact ⟨hprev, hloc.2, hfr, fun p _ hp => by rw [hfr p hp]⟩
  · intro l r hr e he
    obtain ⟨-, s2, s3⟩ := Layer.loop_outputs_local x h.next l.neurons (h, []) r hr
      (Nat.le_refl _) (by intro e he; simp at he)
    obtain ⟨e1, -, e3⟩ := s3 e he
    have hfr : ∀ q, q < h.next → (Value.backward m r.1 e).obj q = h.obj q := by
      intro q hq
      rw [backward_local m r.1 e h.next q e3 e1 hq]
      exact s2 q hq
    exact ⟨hfr, fun p _ hp => by rw [hfr p hp]⟩
  · intro mlp r hr e he p hp hlt
    by_cases hls : mlp.layers = []
    · simp [MLP.parameters, hls] at hp
    · obtain ⟨c1, c2⟩ := copy_vector_frame x (h, [])
      obtain ⟨-, s2, s3⟩ := MLP.loop_outputs_cut_off h.next mlp.layers (copy_vector h x) r hls hr c1
      obtain ⟨e1, -, e3⟩ := s3 e he
      have hfr : (Value.backward m r.1 e).obj p = h.obj p := by
        rw [backward_local m r.1 e h.next p e3 e1 hlt, s2 p (Nat.lt_of_lt_of_le hlt c1)]
        exact c2 p hlt
      exact ⟨hfr, by rw [hfr]⟩

/-! ## The size of a network -/

/-- A loop that pushes one element per index: the elements pushed, seen
through a function `sh` whose value does not depend on the state of the loop,
are the values of `s` at the indices. -/
theorem foldl_push_map {α β γ σ : Type} (f : α → β → α) (g : α → β → γ) (sh : γ → σ)
    (s : β → σ) (l : List β) (hsh : ∀ a i, sh (g a i) = s i) :
    ∀ acc : α × List γ,
      ((l.foldl (fun (acc : α × List γ) i => (f acc.1 i, acc.2 ++ [g acc.1 i])) acc).2).map sh
        = acc.2.map sh ++ l.map s := by
  induction l with
  | nil => intro acc; simp
  | cons i rest ih =>
    intro acc
    simp only [List.foldl_cons]
    rw [ih]
    simp [hsh]

/-- The neuron built by the constructor has `max(nin, 0)` weights and the
flag it was given. -/
theorem Neuron.shape_of_ctor (h : Heap) (dis : Nat → ℚ) (nin : ℤ) (nonlin : Bool) :
    (Neuron.ctor h dis nin nonlin).2.shape = (nin.toNat, nonlin) := by
  have hlen := foldl_push_map (fun (a : Heap) i => (a.declare (dis i)).1)
    (fun (a : Heap) (_ : Nat) => a.next) (fun _ => ()) (fun _ => ()) (List.range nin.toNat)
    (fun _ _ => rfl) (h, [])
  have hlen2 := congrArg List.length hlen
  simp only [List.length_map, List.map_nil, List.nil_append, List.length_range] at hlen2
  simp only [Neuron.shape, Neuron.ctor, hlen2]

/-- The layer built by the constructor has `max(nout, 0)` neurons, each with
`max(nin, 0)` weights and the flag given. -/
theorem Layer.shape_of_new_layer (h : Heap) (dis : Nat → Nat → ℚ) (nin nout : ℤ) (nonlin : Bool) :
    (Layer.ctor h dis nin nout nonlin).2.shape
      = List.replicate nout.toNat (nin.toNat, nonlin) := by
  have hmap := foldl_push_map (fun (a : Heap) i => (Neuron.ctor a (dis i) nin nonlin).1)
    (fun (a : Heap) i => (Neuron.ctor a (dis i) nin nonlin).2) Neuron.shape
    (fun _ => (nin.toNat, nonlin)) (List.range nout.toNat)
    (fun a i => Neuron.shape_of_ctor a (dis i) nin nonlin) (h, [])
  simp only [List.map_nil, List.nil_append] at hmap
  simp only [Layer.shape, Layer.ctor, hmap]
  apply List.ext_getElem
  · simp
  · intro i h1 h2
    simp

/-- The network built by the constructor: layer `i` has `max(sz[i+1], 0)`
neurons, each with `max(sz[i], 0)` weights, and is nonlinear unless it is the
last one. -/
theorem MLP.shapes_of_ctor (h : Heap) (dis : Nat → Nat → Nat → ℚ) (nin : ℤ) (nouts : List ℤ) :
    (MLP.ctor h dis nin nouts).2.layers.map Layer.shape
      = (List.range nouts.length).map (fun i =>
          List.replicate ((nin :: nouts).getD (i + 1) 0).toNat
            (((nin :: nouts).getD i 0).toNat, decide (i ≠ nouts.length - 1))) := by
  have hmap := foldl_push_map
    (fun (a : Heap) i => (Layer.ctor a (dis i) ((nin :: nouts).getD i 0)
      ((nin :: nouts).getD (i + 1) 0) (decide (i ≠ nouts.length - 1))).1)
    (fun (a : Heap) i => (Layer.ctor a (dis i) ((nin :: nouts).getD i 0)
      ((nin :: nouts).getD (i + 1) 0) (decide (i ≠ nouts.length - 1))).2) Layer.shape
    (fun i => List.replicate ((nin :: nouts).getD (i + 1) 0).toNat
      (((nin :: nouts).getD i 0).toNat, decide (i ≠ nouts.length - 1)))
    (List.range nouts.length)
    (fun a i => Layer.shape_of_new_layer a (dis i) _ _ _) (h, [])
  simp only [List.map_nil, List.nil_append] at hmap
  simp only [MLP.ctor, hmap]

theorem getD_nonneg (l : List ℤ) (hl : ∀ k ∈ l, 0 ≤ k) : ∀ i, 0 ≤ l.getD i 0 := by
  induction l with
  | nil => intro i; simp
  | cons a rest ih =>
    intro i
    cases i with
    | zero => simpa using hl a (List.mem_cons_self a rest)
    | succ j =>
      simpa using ih (fun k hk => hl k (List.mem_cons_of_mem a hk)) j

/-- C20 (as stated, fails): `MLP(-1, {1})` has one layer with one neuron; the
loop `for (i = 0; i < nin; i++)` pushes no weight, so the neuron has 0
weights, while `sz[0]` is -1. -/
theorem mlp_negative_size :
    (MLP.ctor Heap.empty (fun _ _ _ => 0) (-1) [1]).2.layers.map Layer.shape
        = [[(0, false)]] ∧
      ((0 : ℕ) : ℤ) ≠ ([-1, 1] : List ℤ).getD 0 0 := by
  refine ⟨?_, by decide⟩
  rw [MLP.shapes_of_ctor]
  simp [List.range_succ]

/-- C20 (amended): for every `nin >= 0` and every list `nouts` of sizes
`>= 0`, `MLP(nin, nouts)` has `nouts.size()` layers; layer `i` has `nouts[i]`
neurons, each with `sz[i]` weights, where `sz` is `nin` followed by `nouts`;
every layer except the last is nonlinear and the last is linear. -/
theorem mlp_structure (h : Heap) (dis : Nat → Nat → Nat → ℚ) (nin : ℤ) (nouts : List ℤ)
    (hnin : 0 ≤ nin) (hn : ∀ k ∈ nouts, 0 ≤ k) :
    (MLP.ctor h dis nin nouts).2.layers.length = nouts.length ∧
      (∀ i, i < nouts.length →
        ∃ l : Layer, (MLP.ctor h dis nin nouts).2.layers[i]? = some l ∧
          (l.neurons.length : ℤ) = nouts.getD i 0 ∧
          ∀ n ∈ l.neurons, (n.w.length : ℤ) = (nin :: nouts).getD i 0 ∧
            n.nonlin = decide (i ≠ nouts.length - 1)) := by
  have hsz : ∀ i, 0 ≤ (nin :: nouts).getD i 0 := by
    apply getD_nonneg
    intro k hk
    rcases List.mem_cons.mp hk with rfl | hk
    · exact hnin
    · exact hn k hk
  have hshape := MLP.shapes_of_ctor h dis nin nouts
  refine ⟨?_, ?_⟩
  · have hlen := congrArg List.length hshape
    simpa using hlen
  · intro i hi
    have hget : ((MLP.ctor h dis nin nouts).2.layers.map Layer.shape)[i]?
        = some (List.replicate ((nin :: nouts).getD (i + 1) 0).toNat
            (((nin :: nouts).getD i 0).toNat, decide (i ≠ nouts.length - 1))) := by
      rw [hshape]
      simp [hi]
    rw [List.getElem?_map] at hget
    obtain ⟨l, hl, hls⟩ := Option.map_eq_some'.mp hget
    refine ⟨l, hl, ?_, ?_⟩
    · have hlen := congrArg List.length hls
      simp only [Layer.shape, List.length_map, List.length_replicate] at hlen
      rw [hlen, Int.toNat_of_nonneg (hsz (i + 1))]
      simp
    · intro n hnl
      have hmem : n.shape ∈ l.shape := List.mem_map_of_mem Neuron.shape hnl
      rw [hls] at hmem
      have heq := List.eq_of_mem_replicate hmem
      simp only [Neuron.shape, Prod.mk.injEq] at heq
      refine ⟨?_, heq.2⟩
      rw [heq.1, Int.toNat_of_nonneg (hsz i)]

/-- C20 (amended) for `nin = 2`, `nouts = {16, 16, 1}`, the network of
`main`: three layers; the first has 16 nonlinear neurons with 2 weights each,
the last has one linear neuron with 16 weights. -/
theorem mlp_structure_witness :
    (MLP.ctor Heap.empty (fun _ _ _ => 0) 2 [16, 16, 1]).2.layers.length = 3 ∧
      (∃ l : Layer, (MLP.ctor Heap.empty (fun _ _ _ => 0) 2 [16, 16, 1]).2.layers[0]? = some l ∧
        (l.neurons.length : ℤ) = 16 ∧
        ∀ n ∈ l.neurons, (n.w.length : ℤ) = 2 ∧ n.nonlin = true) ∧
      ∃ l : Layer, (MLP.ctor Heap.empty (fun _ _ _ => 0) 2 [16, 16, 1]).2.layers[2]? = some l ∧
        (l.neurons.length : ℤ) = 1 ∧
        ∀ n ∈ l.neurons, (n.w.length : ℤ) = 16 ∧ n.nonlin = false := by
  have hw := mlp_structure Heap.empty (fun _ _ _ => 0) 2 [16, 16, 1] (by decide)
    (by intro k hk; simp only [List.mem_cons, List.mem_singleton, List.not_mem_nil,
          or_false] at hk; rcases hk with rfl | rfl | rfl <;> decide)
  refine ⟨hw.1, ?_, ?_⟩
  · simpa using hw.2 0 (by decide)
  · simpa using hw.2 2 (by decide)

/-- The network `MLP(1, {1, 1})` with every weight drawn as 1, built on the
empty heap: the parameters are the objects 0 to 3. -/
theorem MLP.ctor_small :
    MLP.ctor Heap.empty (fun _ _ _ => 1) 1 [1, 1]
      = (((((Heap.empty.declare 1).1.declare 0).1.declare 1).1.declare 0).1,
          ⟨[⟨[⟨[0], 1, true⟩]⟩, ⟨[⟨[2], 3, false⟩]⟩]⟩) := by
  simp [MLP.ctor, Layer.ctor, Neuron.ctor, List.range_succ, Heap.declare, Heap.empty]

/-- C19 on the network `MLP(1, {1, 1})` and the input `(3)`: `forward`
returns one output, and `backward()` on it leaves the grad of the four
parameters at 0. -/
theorem forward_outputs_detached_witness :
    ∃ r : Heap × List Addr,
      MLP.forward (MLP.ctor Heap.empty (fun _ _ _ => 1) 1 [1, 1]).1
        (MLP.ctor Heap.empty (fun _ _ _ => 1) 1 [1, 1]).2 [Value.ctor 3 [] ""] = .ok r ∧
      r.2 = [10] ∧
      ∀ p ∈ (MLP.ctor Heap.empty (fun _ _ _ => 1) 1 [1, 1]).2.parameters,
        ((Value.backward Libm.sample r.1 10).obj p).grad = 0 := by
  rw [MLP.ctor_small]
  cases hfw : MLP.forward (((((Heap.empty.declare 1).1.declare 0).1.declare 1).1.declare 0).1)
      ⟨[⟨[⟨[0], 1, true⟩]⟩, ⟨[⟨[2], 3, false⟩]⟩]⟩ [Value.ctor 3 [] ""] with
  | error e =>
    simp [MLP.forward, MLP.forward_loop, Layer.forward, Layer.forward_loop, copy_vector,
      Neuron.forward] at hfw
  | ok r =>
    have hr2 : r.2 = [10] := by
      simp [MLP.forward, MLP.forward_loop, Layer.forward, Layer.forward_loop, copy_vector,
        Neuron.forward] at hfw
      rw [← hfw]
      simp [Heap.declare, Heap.empty, Value.relu]
    refine ⟨r, rfl, hr2, ?_⟩
    intro p hp
    have hp4 : p < ((((Heap.empty.declare 1).1.declare 0).1.declare 1).1.declare 0).1.next := by
      simp only [MLP.parameters, Layer.parameters, Neuron.parameters, List.flatMap_cons,
        List.flatMap_nil, List.append_nil, List.cons_append, List.nil_append, List.mem_cons,
        List.mem_singleton, List.not_mem_nil, or_false] at hp
      rcases hp with rfl | rfl | rfl | rfl <;> decide
    have hfr := (forward_outputs_detached Libm.sample _ _).2.2 _ r hfw 10
      (by rw [hr2]; exact List.mem_singleton.mpr rfl) p hp hp4
    rw [hfr.2]
    simp only [MLP.parameters, Layer.parameters, Neuron.parameters, List.flatMap_cons,
      List.flatMap_nil, List.append_nil, List.cons_append, List.nil_append, List.mem_cons,
      List.mem_singleton, List.not_mem_nil, or_false] at hp
    rcases hp with rfl | rfl | rfl | rfl <;>
      simp [Heap.declare, Heap.empty, Heap.obj_alloc]
